import Mathlib

/-!
Verification of the dependency materialisation engine of `livebud/npm`
(`src/npm.go`) against its specification.

Modelling conventions:
* Go strings are modelled as Lean `String`s (lists of characters).  Every
  string the engine manipulates at the decision points below is ASCII, where
  Go's byte-wise operations coincide with the character-wise model.
* Filesystem and network effects are modelled by explicit data: an HTTP
  request is a record carrying the context it was built with, the walk of a
  glob or of a directory tree is an explicit list of yielded paths, and the
  concurrent single-flight scheduler is a small labelled transition system.
* Fallible Go code returns `Except`/`Option`.
-/

namespace Npm

/-! ### Character-list string utilities (Go `strings`, `path`, `path/filepath`) -/

/-- `strings.Split(s, sep)` for a one-character separator, on character
lists.  `splitOnChar sep []` is `[[]]`, matching Go's `Split("", sep) = [""]`. -/
def splitOnChar (sep : Char) : List Char → List (List Char)
  | [] => [[]]
  | c :: rest =>
    let r := splitOnChar sep rest
    if c = sep then [] :: r
    else
      match r with
      | [] => [[c]]
      | h :: t => (c :: h) :: t

/-- `strings.Join(parts, sep)` for a one-character separator. -/
def intercalateSep (sep : Char) : List (List Char) → List Char
  | [] => []
  | [p] => p
  | p :: ps => p ++ sep :: intercalateSep sep ps

/-- `strings.LastIndex(s, sub)` for a one-character `sub`: the index of the
last occurrence, or `none` where Go returns `-1`. -/
def lastIdxOf (c : Char) : List Char → Option Nat
  | [] => none
  | a :: rest =>
    match lastIdxOf c rest with
    | some i => some (i + 1)
    | none => if a = c then some 0 else none

/-- One step of `path.Clean`'s element processing: push a component onto the
stack of kept components (stored in reverse), handling `""`, `.` and `..`
exactly as the documented cleaning algorithm does. -/
def cleanStack (rooted : Bool) (stack : List (List Char)) (comp : List Char) :
    List (List Char) :=
  if comp = [] ∨ comp = ['.'] then stack
  else if comp = ['.', '.'] then
    match stack with
    | [] => if rooted then [] else [comp]
    | h :: t => if h = ['.', '.'] then comp :: stack else t
  else comp :: stack

/-- `path.Clean` (identical to `filepath.Clean` on Unix): split on slashes,
drop empty and `.` components, resolve `..` against the stack (erasing it at
the root), and reassemble; the empty result is `.` (or `/` when rooted). -/
def cleanChars (p : List Char) : List Char :=
  if p = [] then ['.']
  else
    let rooted := p.head? = some '/'
    let stack := (splitOnChar '/' p).foldl (cleanStack rooted) []
    let body := intercalateSep '/' stack.reverse
    if rooted then '/' :: body
    else if body = [] then ['.'] else body

/-- `path.Join` / Unix `filepath.Join`: skip leading empty elements, join the
rest with slashes and clean; all-empty input yields the empty string. -/
def joinChars : List (List Char) → List Char
  | [] => []
  | [] :: rest => joinChars rest
  | elems => cleanChars (intercalateSep '/' elems)

/-- Unix `filepath.Dir`: everything up to and including the last slash,
cleaned; `.` when there is no slash. -/
def dirChars (p : List Char) : List Char :=
  match splitOnChar '/' p with
  | [] => ['.']
  | [_] => ['.']
  | parts => cleanChars (intercalateSep '/' parts.dropLast ++ ['/'])

/-- `path.Base` / Unix `filepath.Base`: the last element after stripping
trailing slashes; `.` on the empty string, `/` when the path is all slashes. -/
def baseChars (p : List Char) : List Char :=
  if p = [] then ['.']
  else
    match (splitOnChar '/' p).reverse.dropWhile (· = []) with
    | [] => ['/']
    | h :: _ => h

/-- String wrapper for `path.Clean` / `filepath.Clean`. -/
def pathClean (p : String) : String := ⟨cleanChars p.data⟩

/-- String wrapper for `path.Join` / `filepath.Join`. -/
def goJoin (elems : List String) : String := ⟨joinChars (elems.map String.data)⟩

/-- String wrapper for `filepath.Dir`. -/
def goDir (p : String) : String := ⟨dirChars p.data⟩

/-- String wrapper for `path.Base` / `filepath.Base`. -/
def goBase (p : String) : String := ⟨baseChars p.data⟩

/-! ### Specifier parser (`src/npm.go`: `isLocal`, `isAbsolute`, `parseScope`,
the parsing stage of `resolvePackage`) -/

/-- `isLocal`: `strings.HasPrefix(pkgname, ".")`. -/
def isLocal (pkgname : String) : Bool := pkgname.data.head? = some '.'

/-- `isAbsolute`: `strings.HasPrefix(pkgname, "/")`. -/
def isAbsolute (pkgname : String) : Bool := pkgname.data.head? = some '/'

/-- `parseScope`: split a package name on the last `/` into scope and bare
name; a name with no `/` has empty scope. -/
def parseScope (pkgname : String) : String × String :=
  match lastIdxOf '/' pkgname.data with
  | none => ("", pkgname)
  | some i => (⟨pkgname.data.take i⟩, ⟨pkgname.data.drop (i + 1)⟩)

/-- The three failure sites of `resolvePackage`'s parsing stage, one
constructor per `fmt.Errorf` site; the carried string is the raw specifier. -/
inductive SpecErr where
  | missingVersion (pkg : String)
  | emptyVersion (pkg : String)
  | taggedVersion (pkg : String)
deriving DecidableEq

/-- An apostrophe character, kept out of string literals. -/
def apos : String := ⟨[Char.ofNat 39]⟩

/-- The error message each failure site formats.  The `missingVersion` and
`emptyVersion` sites share one template; `taggedVersion` has its own. -/
def specErrMsg : SpecErr → String
  | .missingVersion pkg =>
      "npm: unable to install " ++ pkg ++ " because it" ++ apos ++
        "s missing the version (e.g. " ++ pkg ++ "@1.0.0)"
  | .emptyVersion pkg =>
      "npm: unable to install " ++ pkg ++ " because it" ++ apos ++
        "s missing the version (e.g. " ++ pkg ++ "@1.0.0)"
  | .taggedVersion pkg =>
      "npm: unable to install " ++ pkg ++ " because tagged versions aren" ++
        apos ++ "t supported yet"

/-- A parsed registry specifier: scope, bare name and raw version range. -/
structure RegistrySpec where
  scope : String
  name : String
  range : String
deriving DecidableEq

/-- The parsing stage of `resolvePackage` for a registry specifier
(src/npm.go lines 114-124): split on the last `@`, split the name on the last
`/`, reject an absent delimiter, an empty range and the literal tag. -/
def parseRegistrySpec (pkgname : String) : Except SpecErr RegistrySpec :=
  match lastIdxOf '@' pkgname.data with
  | none => .error (.missingVersion pkgname)
  | some index =>
    let pkgName : String := ⟨pkgname.data.take index⟩
    let version : String := ⟨pkgname.data.drop (index + 1)⟩
    let sn := parseScope pkgName
    if version = "" then .error (.emptyVersion pkgname)
    else if version = "latest" then .error (.taggedVersion pkgname)
    else .ok ⟨sn.1, sn.2, version⟩

/-! ### Remote packages (`remotePackage`) -/

/-- `remotePackage`: scope (possibly empty), bare name, resolved version. -/
structure RemotePackage where
  scope : String
  name : String
  version : String
deriving DecidableEq

/-- `remotePackage.Key`: `name` when unscoped, `scope/name` when scoped. -/
def remoteKey (p : RemotePackage) : String :=
  if p.scope = "" then p.name else p.scope ++ "/" ++ p.name

/-- `remotePackage.url`: the registry tarball URL. -/
def remoteUrl (p : RemotePackage) : String :=
  if p.scope = "" then
    "https://registry.npmjs.org/" ++ p.name ++ "/-/" ++ p.name ++ "-" ++
      p.version ++ ".tgz"
  else
    "https://registry.npmjs.org/" ++ p.scope ++ "/" ++ p.name ++ "/-/" ++
      p.name ++ "-" ++ p.version ++ ".tgz"

/-- `remotePackage.dir`: the install directory under a root. -/
def remoteDir (root : String) (p : RemotePackage) : String :=
  if p.scope = "" then goJoin [root, "node_modules", p.name]
  else goJoin [root, "node_modules", p.scope, p.name]

/-! ### Tar extraction target paths (`remotePackage.Install`, `rootless`) -/

/-- `rootless`: split on the separator and rejoin all but the first segment. -/
def rootless (fpath : String) : String :=
  goJoin ((splitOnChar '/' fpath.data).drop 1 |>.map (⟨·⟩))

/-- `archive/tar`'s `headerFileInfo.Name()`: the base of the entry name,
cleaned first for directory entries. -/
def tarInfoName (name : String) (isDir : Bool) : String :=
  if isDir then goBase (pathClean name) else goBase name

/-- Where `remotePackage.Install` writes a tar entry (src/npm.go lines
192-193): `dir` is the install directory joined with the rootless directory
part of the entry name, and the target is `dir` joined with the entry's
`FileInfo` name. -/
def entryTarget (installDir : String) (name : String) (isDir : Bool) : String :=
  let dir := goJoin [installDir, rootless (goDir name)]
  goJoin [dir, tarInfoName name isDir]

/-! ### Root driver (`Install`, src/npm.go lines 34-67) -/

/-- The initial specifier list `Install` schedules, together with a flag
recording whether the root manifest was consulted.  The manifest's
`dependencies` are supplied as an association list (Go map iteration order is
arbitrary; the claims are about membership).  With no specifiers the driver
reads the root manifest and forms one specifier per dependency; otherwise the
given specifiers are used as they are and the manifest is not read. -/
def buildInitialPackages (packages : List String)
    (deps : List (String × String)) : List String × Bool :=
  if packages.isEmpty then
    (deps.map fun dv =>
      if isLocal dv.2 || isAbsolute dv.2 then dv.2 else dv.1 ++ "@" ++ dv.2,
     true)
  else (packages, false)

/-! ### Local packages (`localPackage`, `ignorePaths`, `hiddenPath`) -/

/-- `hiddenPath`: `strings.HasPrefix(p, ".")`. -/
def hiddenPath (p : String) : Bool := p.data.head? = some '.'

/-- The fixed deny set `ignorePaths`. -/
def ignorePaths (p : String) : Bool :=
  p = "node_modules" || p = ".git" || p = ".DS_Store" || p = ".npmignore" ||
    p = ".gitignore" || p = ".npmrc" || p = "npm-debug.log"

/-- The manifest subset the engine consumes.  `imports` is a map of maps and
`exports` a map, both given as association lists. -/
structure LocalManifest where
  name : String
  main : String
  browser : String
  files : List String
  imports : List (String × List (String × String))
  exports : List (String × String)
  dependencies : List (String × String)

/-- `localPackage.Key`: the manifest's declared name. -/
def localKey (name : String) : String := name

/-- The filter applied to each path yielded by the `files` glob walk
(src/npm.go lines 362-364): keep a path unless its base name is hidden or in
the deny set.  `walked` lists the walk's yielded paths relative to the
package directory (the loop converts each yielded path with `filepath.Rel`
before storing it). -/
def filesWalkKept (walked : List String) : List String :=
  walked.filter fun p => !(hiddenPath (goBase p) || ignorePaths (goBase p))

/-- The include set `fileMap` built by `localPackage.Install` (src/npm.go
lines 349-379): the literal manifest entry, the cleaned `main` and `browser`
values when non-empty, the kept walk results, and the cleaned values of the
nested `imports` map and of `exports`. -/
def localFileSet (m : LocalManifest) (walked : List String) : List String :=
  ["package.json"] ++
    (if m.main ≠ "" then [pathClean m.main] else []) ++
    (if m.browser ≠ "" then [pathClean m.browser] else []) ++
    filesWalkKept walked ++
    (m.imports.flatMap fun imp => imp.2.map fun kv => pathClean kv.2) ++
    (m.exports.map fun kv => pathClean kv.2)

/-- The directory `localPackage.Install` copies into:
`filepath.Join(to, "node_modules", manifest.Name)`. -/
def localNodeDir (root : String) (name : String) : String :=
  goJoin [root, "node_modules", name]

/-- The copy jobs issued by `copyFiles(pkgPath, nodeDir, files...)`: one
(source, destination) pair per included path. -/
def copyPairs (pkgPath nodeDir : String) (files : List String) :
    List (String × String) :=
  files.map fun file => (goJoin [pkgPath, file], goJoin [nodeDir, file])

/-- `copyDir`'s per-entry filter (src/npm.go line 446): an entry of the
walked subtree is skipped when its path relative to the copied directory
starts with `.` or its base name is in the deny set.  `tree` lists the
relative paths `filepath.Walk` visits under the source directory. -/
def copyDirKept (tree : List String) : List String :=
  tree.filter fun rel => !(hiddenPath rel || ignorePaths (goBase rel))

/-- The relative paths (to the package's install directory) of everything a
local install writes, given oracles for which included paths are directories
and for the subtree `filepath.Walk` visits under each directory: a plain file
is copied as itself, a directory contributes its kept subtree. -/
def localInstalledPaths (m : LocalManifest) (walked : List String)
    (isDir : String → Bool) (treeUnder : String → List String) :
    List String :=
  (localFileSet m walked).flatMap fun f =>
    if isDir f then (copyDirKept (treeUnder f)).map fun rel => goJoin [f, rel]
    else [f]

/-! ### Single-flight scheduler (`install` with `singleflight.Group`) -/

/-- An atomic scheduler event: a task enters `sg.Do` for a key, or the
function run under a key completes (releasing its waiters and deleting the
key from the group's map, as `singleflight.doCall` does). -/
inductive SgEvent where
  | enter (key : String)
  | complete (key : String)
deriving DecidableEq

/-- Scheduler state: the keys with an execution in flight, and the log of
keys whose install function was actually run (in start order). -/
structure SgState where
  inflight : List String
  runs : List String
deriving DecidableEq

/-- One step of `singleflight.Group.Do` as used by `install`: a task entering
for an in-flight key joins it as a waiter and runs nothing; a task entering
for an absent key inserts it and runs the install; completion deletes the key.
A completion for a key not in flight cannot occur (`none`). -/
def sgStep (s : SgState) : SgEvent → Option SgState
  | .enter k =>
    if k ∈ s.inflight then some s
    else some ⟨k :: s.inflight, s.runs ++ [k]⟩
  | .complete k =>
    if k ∈ s.inflight then some ⟨s.inflight.erase k, s.runs⟩ else none

/-- Run a session's schedule from the empty group. -/
def sgExec (events : List SgEvent) : Option SgState :=
  events.foldl (fun acc e => acc.bind fun s => sgStep s e) (some ⟨[], []⟩)

/-- How many completions for a key a schedule contains. -/
def sgCompletions (key : String) (events : List SgEvent) : Nat :=
  events.count (.complete key)

/-! ### Cancellation plumbing (`remotePackage.Install`, `resolveVersions`) -/

/-- A Go context: the background context or a cancellable session context. -/
inductive GoContext where
  | background
  | cancellable (id : Nat)
deriving DecidableEq

/-- An HTTP request together with the context it is bound to. -/
structure HttpRequest where
  method : String
  url : String
  ctx : GoContext
deriving DecidableEq

/-- `http.NewRequestWithContext`. -/
def newRequestWithContext (ctx : GoContext) (method url : String) :
    HttpRequest :=
  ⟨method, url, ctx⟩

/-- `http.NewRequest`, which Go defines as `NewRequestWithContext` on
`context.Background()`. -/
def newRequest (method url : String) : HttpRequest :=
  newRequestWithContext .background method url

/-- The tarball GET built by `remotePackage.Install` (src/npm.go line 166):
bound to the caller's context. -/
def tarballRequest (ctx : GoContext) (p : RemotePackage) : HttpRequest :=
  newRequestWithContext ctx "GET" (remoteUrl p)

/-- The version-metadata GET built by `resolveVersions` (src/npm.go line
239): built with `http.NewRequest`, with no caller context in scope. -/
def metadataRequest (pkgName : String) : HttpRequest :=
  newRequest "GET" ("https://registry.npmjs.org/" ++ pkgName)

/-! ### Semantic versions (`Masterminds/semver/v3`, the library
`resolveVersions` and `resolveVersion` are built on) -/

/-- A parsed semantic version.  `pre` is the raw dot-separated prerelease
string (empty when absent) and `metadata` the build metadata, exactly the
fields `semver.Version` stores. -/
structure SemVer where
  major : Nat
  minor : Nat
  patch : Nat
  pre : String
  metadata : String
deriving DecidableEq

/-- The value of a run of decimal digits. -/
def digitsVal (l : List Char) : Nat :=
  l.foldl (fun acc c => 10 * acc + (c.toNat - 48)) 0

/-- A character the semver grammar allows in prerelease and metadata
identifiers: `[0-9A-Za-z-]`. -/
def isIdentChar (c : Char) : Bool := c.isDigit || c.isAlpha || c = '-'

/-- Dot-separated identifier runs are valid when every part is non-empty
(`[0-9A-Za-z-]+(\.[0-9A-Za-z-]+)*`); the character class is already enforced
by the caller's span. -/
def validDotParts (raw : List Char) : Bool :=
  (splitOnChar '.' raw).all fun part => !part.isEmpty

/-- Parse the optional `(\.[0-9]+)?` group of `semver.NewVersion`'s regex:
an absent group contributes 0, a present group must carry digits that fit
`strconv.ParseUint(_, 10, 64)`. -/
def parseOptDotNum (l : List Char) : Option (Nat × List Char) :=
  match l with
  | '.' :: r =>
    let p := r.span (·.isDigit)
    if p.1.isEmpty ∨ 2 ^ 64 ≤ digitsVal p.1 then none
    else some (digitsVal p.1, p.2)
  | _ => some (0, l)

/-- Parse the optional `-prerelease` and `+metadata` suffixes and require the
end of the string (the regex is anchored). -/
def parsePreMeta (l : List Char) : Option (String × String) :=
  match l with
  | [] => some ("", "")
  | '-' :: r =>
    let p := r.span fun c => isIdentChar c || c = '.'
    if !validDotParts p.1 then none
    else
      match p.2 with
      | [] => some (⟨p.1⟩, "")
      | '+' :: r2 =>
        let q := r2.span fun c => isIdentChar c || c = '.'
        if !validDotParts q.1 ∨ !q.2.isEmpty then none
        else some (⟨p.1⟩, ⟨q.1⟩)
      | _ => none
  | '+' :: r2 =>
    let q := r2.span fun c => isIdentChar c || c = '.'
    if !validDotParts q.1 ∨ !q.2.isEmpty then none
    else some ("", ⟨q.1⟩)
  | _ => none

/-- `semver.NewVersion`: match `^v?(\d+)(\.\d+)?(\.\d+)?(-pre)?(\+meta)?$`
leniently (optional leading `v`, optional minor and patch) and read the
numeric segments with `strconv.ParseUint(_, 10, 64)`; any failure yields
`none` (the caller drops the key). -/
def parseSemVer (s : String) : Option SemVer :=
  let l0 := s.data
  let l1 := if l0.head? = some 'v' then l0.drop 1 else l0
  let p := l1.span (·.isDigit)
  if p.1.isEmpty ∨ 2 ^ 64 ≤ digitsVal p.1 then none
  else
    (parseOptDotNum p.2).bind fun mn =>
    (parseOptDotNum mn.2).bind fun pt =>
    (parsePreMeta pt.2).map fun pm =>
    ⟨digitsVal p.1, mn.1, pt.1, pm.1, pm.2⟩

/-- `semver.Version.String()`: `major.minor.patch`, then `-pre` and `+meta`
when non-empty. -/
def vString (v : SemVer) : String :=
  toString v.major ++ "." ++ toString v.minor ++ "." ++ toString v.patch ++
    (if v.pre ≠ "" then "-" ++ v.pre else "") ++
    (if v.metadata ≠ "" then "+" ++ v.metadata else "")

/-- `semver.compareSegment` on numeric segments. -/
def compareSegment (v o : Nat) : Int :=
  if v < o then -1 else if v > o then 1 else 0

/-- `strconv.ParseInt(s, 10, 64)`: optional sign, a non-empty digit run, and
the signed 64-bit range check; `none` where Go returns an error. -/
def goParseInt64 (l : List Char) : Option Int :=
  let core := fun (neg : Bool) (digits : List Char) =>
    if digits.isEmpty ∨ !digits.all (·.isDigit) then none
    else
      let v := digitsVal digits
      if neg then
        if v ≤ 2 ^ 63 then some (-(v : Int)) else none
      else if v ≤ 2 ^ 63 - 1 then some (v : Int) else none
  match l with
  | '+' :: r => core false r
  | '-' :: r => core true r
  | _ => core false l

/-- Three-way lexicographic comparison of character lists; agrees with Go's
byte-wise string comparison on ASCII. -/
def cmpCharLex : List Char → List Char → Int
  | [], [] => 0
  | [], _ :: _ => -1
  | _ :: _, [] => 1
  | a :: as, b :: bs =>
    if a < b then -1 else if b < a then 1 else cmpCharLex as bs

/-- `semver.comparePrePart`: equal parts tie; an empty part (the padding of a
shorter prerelease list) loses to any identifier; otherwise parts that both
fail `strconv.ParseInt` compare as strings, a numeric part is below an
alphanumeric one, and two numeric parts compare by value (with ties broken
towards -1, as the Go code does). -/
def comparePrePart (s o : List Char) : Int :=
  if s = o then 0
  else if s = [] then (if o ≠ [] then -1 else 1)
  else if o = [] then 1
  else
    match goParseInt64 o, goParseInt64 s with
    | none, none => if cmpCharLex s o = 1 then 1 else -1
    | none, some _ => -1
    | some _, none => 1
    | some oi, some si => if si > oi then 1 else -1

/-- The tail of `semver.comparePrerelease`'s padded loop once the first
list is exhausted: each remaining part is compared against `""`. -/
def cmpNilList : List (List Char) → Int
  | [] => 0
  | b :: bs =>
    let d := comparePrePart [] b
    if d ≠ 0 then d else cmpNilList bs

/-- `semver.comparePrerelease`'s padded loop over dot-separated parts. -/
def cmpPreList : List (List Char) → List (List Char) → Int
  | [], y => cmpNilList y
  | a :: as, [] =>
    let d := comparePrePart a []
    if d ≠ 0 then d else cmpPreList as []
  | a :: as, b :: bs =>
    let d := comparePrePart a b
    if d ≠ 0 then d else cmpPreList as bs

/-- `semver.comparePrerelease` on the raw prerelease strings. -/
def comparePrerelease (v o : String) : Int :=
  cmpPreList (splitOnChar '.' v.data) (splitOnChar '.' o.data)

/-- The prerelease phase of `semver.Version.Compare`: a version without
prerelease is above one with; two prereleases compare by
`comparePrerelease`. -/
def prePhase (v o : SemVer) : Int :=
  if v.pre = "" && o.pre = "" then 0
  else if v.pre = "" then 1
  else if o.pre = "" then -1
  else comparePrerelease v.pre o.pre

/-- `semver.Version.Compare`: major, minor, patch, then prerelease (build
metadata is ignored). -/
def semCompare (v o : SemVer) : Int :=
  let d1 := compareSegment v.major o.major
  if d1 ≠ 0 then d1 else
  let d2 := compareSegment v.minor o.minor
  if d2 ≠ 0 then d2 else
  let d3 := compareSegment v.patch o.patch
  if d3 ≠ 0 then d3 else
  prePhase v o

/-- Insert into an ascending list, by `Collection.Less` =
`Compare(_) < 0`. -/
def insertVersion (v : SemVer) : List SemVer → List SemVer
  | [] => [v]
  | h :: t =>
    if semCompare v h < 0 then v :: h :: t else h :: insertVersion v t

/-- `sort.Sort(versions)`: an ascending reordering under
`Collection.Less`.  Modelled as insertion sort; on the well-formed versions
the claims quantify over, the comparator is a total preorder, for which every
correct sort produces an ascending permutation. -/
def sortVersions : List SemVer → List SemVer
  | [] => []
  | v :: rest => insertVersion v (sortVersions rest)

/-- The walk of `resolveVersion` from the highest sorted version downwards:
the first (highest) version satisfying the constraint checker. -/
def findFromTop (chk : SemVer → Bool) : List SemVer → Option SemVer
  | [] => none
  | v :: rest =>
    match findFromTop chk rest with
    | some r => some r
    | none => if chk v then some v else none

/-- The failure of `resolveVersion` when every version misses the range. -/
inductive ResolveErr where
  | noMatchingVersion (pkgName constraint : String)
deriving DecidableEq

/-- The pure core of `resolveVersions` (src/npm.go lines 261-271), applied to
the keys of the registry document's `versions` object: keys that fail
`semver.NewVersion` are skipped with `continue`, the rest are sorted
ascending. -/
def resolveVersionsPure (keys : List String) : List SemVer :=
  sortVersions (keys.filterMap parseSemVer)

/-- The pure core of `resolveVersion` (src/npm.go lines 283-288): walk the
sorted collection from highest to lowest and return the `String()` of the
first version accepted by the compiled constraint checker `chk`, or the
"no matching version found" error.  The checker abstracts
`semver.NewConstraint(constraint).Check`; the claim quantifies over valid
ranges. -/
def resolveVersionModel (pkgName constraint : String) (keys : List String)
    (chk : SemVer → Bool) : Except ResolveErr String :=
  match findFromTop chk (resolveVersionsPure keys) with
  | some v => .ok (vString v)
  | none => .error (.noMatchingVersion pkgName constraint)

/-- A numeric prerelease part in canonical form: non-empty digits, no
leading zero (unless it is `0` itself) and within `ParseInt`'s range, so that
distinct parts have distinct values. -/
def numericNormal (p : List Char) : Bool :=
  !p.isEmpty && p.all (·.isDigit) &&
    (p.head? ≠ some '0' || p = ['0']) && digitsVal p ≤ 2 ^ 63 - 1

/-- A well-formed prerelease part: either not numeric at all for
`strconv.ParseInt`, or numeric in canonical form. -/
def wfPart (p : List Char) : Bool :=
  (goParseInt64 p).isNone || numericNormal p

/-- A well-formed version: every prerelease part is non-empty and
well-formed.  All semver-spec-conforming versions (in particular everything
the registry serves) are well-formed. -/
def wfVersion (v : SemVer) : Bool :=
  v.pre = "" ||
    (splitOnChar '.' v.pre.data).all fun p => !p.isEmpty && wfPart p

/-! ### Auxiliary path vocabulary for the theorems -/

/-- A plain path segment: non-empty, slash-free, and not one of the special
components `.` and `..`. -/
def PlainSeg (seg : List Char) : Prop :=
  seg ≠ [] ∧ '/' ∉ seg ∧ seg ≠ ['.'] ∧ seg ≠ ['.', '.']

instance : DecidablePred PlainSeg := fun seg => by
  unfold PlainSeg; infer_instance

/-- An absolute path in cleaned form: a slash followed by plain segments. -/
def AbsPlain (s : String) (q : List (List Char)) : Prop :=
  q ≠ [] ∧ (∀ seg ∈ q, PlainSeg seg) ∧ s.data = '/' :: intercalateSep '/' q

instance (s : String) (q : List (List Char)) : Decidable (AbsPlain s q) := by
  unfold AbsPlain; infer_instance

/-- `localPackage` as built by `readLocalPackage`. -/
structure LocalPackage where
  name : String
  path : String
deriving DecidableEq

/-- `readLocalPackage` after a successful manifest decode: the decoded `name`
field (`none` when absent, which Go's decoder leaves as the empty string) is
taken as-is, with no validation. -/
def readLocalPackage (pkgdir : String) (decodedName : Option String) :
    LocalPackage :=
  ⟨decodedName.getD "", pkgdir⟩

/-! ## Theorems -/

/-! ### C8: cancellation plumbing -/

/-- C8: the claim fails on the code.  The tarball GET of
`remotePackage.Install` is bound to the caller's context, but the
version-metadata GET of `resolveVersions` is built with `http.NewRequest`,
i.e. on the background context, for every package name — so a cancelled
session does not abort an in-flight metadata request. -/
theorem c8_metadata_request_unbound :
    (tarballRequest (.cancellable 0) ⟨"", "preact", "10.19.4"⟩).ctx =
        .cancellable 0 ∧
      (metadataRequest "preact").ctx = .background ∧
      GoContext.background ≠ .cancellable 0 ∧
      (∀ ctx p, (tarballRequest ctx p).ctx = ctx) ∧
      (∀ pkgName, (metadataRequest pkgName).ctx = .background) :=
  ⟨rfl, rfl, by decide, fun _ _ => rfl, fun _ => rfl⟩

/-! ### C6: the root driver's initial specifier set -/

/-- C6: with one or more specifiers the root manifest is not read (the result
does not depend on it and the read flag stays false); with zero specifiers
the manifest is read and each dependency contributes its range itself when
the range starts with `.` or `/` (the name is unused), and `name@range`
otherwise. -/
theorem c6_driver_initial_specifiers :
    (∀ (packages : List String) (deps deps' : List (String × String)),
        packages ≠ [] →
          buildInitialPackages packages deps = (packages, false) ∧
          buildInitialPackages packages deps =
            buildInitialPackages packages deps') ∧
      (∀ deps : List (String × String),
        (buildInitialPackages [] deps).2 = true) ∧
      (∀ (deps : List (String × String)) (dv : String × String), dv ∈ deps →
        ((isLocal dv.2 || isAbsolute dv.2) = true →
          dv.2 ∈ (buildInitialPackages [] deps).1) ∧
        ((isLocal dv.2 || isAbsolute dv.2) = false →
          dv.1 ++ "@" ++ dv.2 ∈ (buildInitialPackages [] deps).1)) := by
  refine ⟨fun packages deps deps' hne => ?_, fun deps => rfl, ?_⟩
  · have hf : packages.isEmpty = false := by
      cases packages with
      | nil => exact absurd rfl hne
      | cons a l => rfl
    constructor <;> simp [buildInitialPackages, hf]
  · intro deps dv hmem
    constructor <;> intro hcase
    · refine List.mem_map.mpr ⟨dv, hmem, ?_⟩
      simp [hcase]
    · refine List.mem_map.mpr ⟨dv, hmem, ?_⟩
      simp [hcase]

/-- Witness for C6 at concrete inputs. -/
theorem c6_driver_initial_specifiers_witness :
    buildInitialPackages ["svelte@3.42.3"] [("uid", "2.0.0")] =
        (["svelte@3.42.3"], false) ∧
      "./pkg" ∈ (buildInitialPackages [] [("loc", "./pkg"), ("uid", "2.0.0")]).1 ∧
      "uid" ++ "@" ++ "2.0.0" ∈
        (buildInitialPackages [] [("loc", "./pkg"), ("uid", "2.0.0")]).1 :=
  ⟨(c6_driver_initial_specifiers.1 ["svelte@3.42.3"] [("uid", "2.0.0")] []
      (by decide)).1,
   (c6_driver_initial_specifiers.2.2 [("loc", "./pkg"), ("uid", "2.0.0")]
      ("loc", "./pkg") (by decide)).1 (by decide),
   (c6_driver_initial_specifiers.2.2 [("loc", "./pkg"), ("uid", "2.0.0")]
      ("uid", "2.0.0") (by decide)).2 (by decide)⟩

/-! ### C1: single-flight de-duplication -/

/-- A step applied to a dead accumulator stays dead. -/
theorem sgFold_none (events : List SgEvent) :
    events.foldl (fun acc e => acc.bind fun st => sgStep st e) none = none := by
  induction events with
  | nil => rfl
  | cons e evs ih => simpa using ih

/-- Invariant of the single-flight transition system, from any start state:
the in-flight list stays duplicate-free, and for every key the number of
runs started balances against completions and the in-flight indicator. -/
theorem sgSteps_inv (events : List SgEvent) :
    ∀ s0 s : SgState,
      events.foldl (fun acc e => acc.bind fun st => sgStep st e) (some s0) =
          some s →
        s0.inflight.Nodup →
        s.inflight.Nodup ∧
          ∀ k, s.runs.count k + s0.inflight.count k =
            s0.runs.count k + sgCompletions k events + s.inflight.count k := by
  induction events with
  | nil =>
    intro s0 s h hnd
    simp only [List.foldl_nil, Option.some.injEq] at h
    subst h
    exact ⟨hnd, fun k => by simp [sgCompletions]⟩
  | cons e evs ih =>
    intro s0 s h hnd
    rw [List.foldl_cons] at h
    have hbind : (some s0).bind (fun st => sgStep st e) = sgStep s0 e := rfl
    rw [hbind] at h
    match e with
    | .enter k' =>
      by_cases hmem : k' ∈ s0.inflight
      · have hstep : sgStep s0 (.enter k') = some s0 := by
          simp [sgStep, hmem]
        rw [hstep] at h
        obtain ⟨hnd', heq⟩ := ih s0 s h hnd
        refine ⟨hnd', fun k => ?_⟩
        have := heq k
        have hc : sgCompletions k (SgEvent.enter k' :: evs) =
            sgCompletions k evs := by
          simp [sgCompletions, List.count_cons]
        omega
      · have hstep : sgStep s0 (.enter k') =
            some ⟨k' :: s0.inflight, s0.runs ++ [k']⟩ := by
          simp [sgStep, hmem]
        rw [hstep] at h
        have hnd1 : (k' :: s0.inflight).Nodup := List.nodup_cons.mpr ⟨hmem, hnd⟩
        obtain ⟨hnd', heq⟩ := ih _ s h hnd1
        refine ⟨hnd', fun k => ?_⟩
        have := heq k
        have hc : sgCompletions k (SgEvent.enter k' :: evs) =
            sgCompletions k evs := by
          simp [sgCompletions, List.count_cons]
        by_cases hk : k = k' <;>
          simp only [List.count_append, List.count_cons, List.count_nil,
            hk] at this ⊢ <;> simp_all <;> omega
    | .complete k' =>
      by_cases hmem : k' ∈ s0.inflight
      · have hstep : sgStep s0 (.complete k') =
            some ⟨s0.inflight.erase k', s0.runs⟩ := by
          simp [sgStep, hmem]
        rw [hstep] at h
        have hnd1 : (s0.inflight.erase k').Nodup := hnd.erase k'
        obtain ⟨hnd', heq⟩ := ih _ s h hnd1
        refine ⟨hnd', fun k => ?_⟩
        have hthis := heq k
        dsimp only at hthis
        have hcnt : (s0.inflight.erase k').count k =
            s0.inflight.count k - if k' = k then 1 else 0 := by
          rw [List.count_erase]
          by_cases hk : k' = k <;> simp [hk]
        have hpos : 0 < s0.inflight.count k' :=
          List.count_pos_iff.mpr hmem
        have hc : sgCompletions k (SgEvent.complete k' :: evs) =
            (if k = k' then 1 else 0) + sgCompletions k evs := by
          by_cases hk : k = k' <;>
            simp [sgCompletions, List.count_cons, hk, Nat.add_comm]
        rw [hcnt] at hthis
        rw [hc]
        by_cases hk : k = k'
        · subst hk
          simp only [eq_self_iff_true, if_true] at hthis ⊢
          omega
        · have hk2 : k' ≠ k := fun hh => hk hh.symm
          simp only [if_neg hk, if_neg hk2] at hthis ⊢
          omega
      · have hstep : sgStep s0 (.complete k') = none := by
          simp [sgStep, hmem]
        rw [hstep] at h
        rw [sgFold_none] at h
        exact absurd h (by simp)

/-- C1 counterexample: the claim fails on the code.  `singleflight.Group.Do`
deletes a key when its call completes, so in the schedule where a session's
attempt for the key of `react@18.2.0` completes before a second attempt for
the same key is scheduled (for example, a top-level install finishing before
a sibling discovers the same package as a transitive dependency), the
install runs twice within one session. -/
theorem c1_counterexample :
    sgExec [.enter (remoteKey ⟨"", "react", "18.2.0"⟩),
        .complete (remoteKey ⟨"", "react", "18.2.0"⟩),
        .enter (remoteKey ⟨"", "react", "18.2.0"⟩)] =
      some ⟨["react"], ["react", "react"]⟩ ∧
      ¬ (["react", "react"].count "react" ≤ 1) :=
  ⟨rfl, by decide⟩

/-- C1 amended: within one session, at most one install per key is in flight
at any time; an attempt entering while an install for its key is in flight
awaits and reuses that result without starting a run; and a key's install
runs at most once more than it has completed — so an install re-runs only
when a previous install for the same key has already finished, never
concurrently. -/
theorem c1_amended_single_inflight (events : List SgEvent) (s : SgState)
    (h : sgExec events = some s) :
    (∀ k, s.inflight.count k ≤ 1) ∧
      (∀ k, s.runs.count k ≤ sgCompletions k events + 1) ∧
      (∀ k, k ∈ s.inflight → sgStep s (.enter k) = some s) := by
  obtain ⟨hnd, heq⟩ := sgSteps_inv events ⟨[], []⟩ s h (by simp)
  refine ⟨fun k => List.nodup_iff_count_le_one.mp hnd k, fun k => ?_,
    fun k hk => by simp [sgStep, hk]⟩
  have := heq k
  have hle := List.nodup_iff_count_le_one.mp hnd k
  simp only [List.count_nil] at this
  omega

/-! ### String decomposition lemmas for the specifier parser -/

/-- String concatenation concatenates the underlying character lists. -/
theorem strData_append (s t : String) : (s ++ t).data = s.data ++ t.data := rfl

/-- Taking up to a marked position recovers the part before the marker. -/
theorem take_append_at (a b : List Char) (c : Char) :
    (a ++ c :: b).take a.length = a := by
  induction a with
  | nil => rfl
  | cons x xs ih => simp [ih]

/-- Dropping past a marked position recovers the part after the marker. -/
theorem drop_append_at (a b : List Char) (c : Char) :
    (a ++ c :: b).drop (a.length + 1) = b := by
  induction a with
  | nil => rfl
  | cons x xs ih => simp [ih]

/-- `lastIdxOf` misses exactly when the character is absent. -/
theorem lastIdxOf_eq_none_iff {c : Char} {l : List Char} :
    lastIdxOf c l = none ↔ c ∉ l := by
  induction l with
  | nil => simp [lastIdxOf]
  | cons a rest ih =>
    rw [lastIdxOf]
    cases hrest : lastIdxOf c rest with
    | some j =>
      have hmem : c ∈ rest := by
        by_contra hc
        rw [ih.mpr hc] at hrest
        cases hrest
      simp [hmem]
    | none =>
      have hnot : c ∉ rest := ih.mp hrest
      by_cases hac : a = c
      · simp [hac]
      · rw [if_neg hac]
        refine ⟨fun _ hmem => ?_, fun _ => rfl⟩
        rcases List.mem_cons.mp hmem with hca | hcr
        · exact hac hca.symm
        · exact hnot hcr

/-- `lastIdxOf` finds the marked occurrence when nothing follows it. -/
theorem lastIdxOf_append (a b : List Char) (c : Char) (h : c ∉ b) :
    lastIdxOf c (a ++ c :: b) = some a.length := by
  induction a with
  | nil => simp [lastIdxOf, lastIdxOf_eq_none_iff.mpr h]
  | cons x xs ih => simp [lastIdxOf, ih]

/-- A successful `lastIdxOf` splits the list at the last occurrence. -/
theorem lastIdxOf_some_decomp {c : Char} {l : List Char} {i : Nat}
    (h : lastIdxOf c l = some i) :
    l = l.take i ++ c :: l.drop (i + 1) ∧ c ∉ l.drop (i + 1) := by
  induction l generalizing i with
  | nil => cases h
  | cons a rest ih =>
    rw [lastIdxOf] at h
    cases hrest : lastIdxOf c rest with
    | some j =>
      rw [hrest] at h
      obtain rfl : j + 1 = i := by injection h
      obtain ⟨hd, hnm⟩ := ih hrest
      refine ⟨?_, by simpa using hnm⟩
      calc a :: rest = a :: (rest.take j ++ c :: rest.drop (j + 1)) := by
            rw [← hd]
        _ = (a :: rest).take (j + 1) ++ c :: (a :: rest).drop (j + 1 + 1) := by
            simp
    | none =>
      rw [hrest] at h
      by_cases hac : a = c
      · rw [if_pos hac] at h
        obtain rfl : (0 : Nat) = i := by injection h
        subst hac
        exact ⟨by simp, lastIdxOf_eq_none_iff.mp hrest⟩
      · rw [if_neg hac] at h
        cases h

/-- Reduction of `parseRegistrySpec` on a specifier decomposed at its last
`@`. -/
theorem parseRegistrySpec_split (nm ver : String) (h : '@' ∉ ver.data) :
    parseRegistrySpec (nm ++ "@" ++ ver) =
      (if ver = "" then .error (.emptyVersion (nm ++ "@" ++ ver))
       else if ver = "latest" then .error (.taggedVersion (nm ++ "@" ++ ver))
       else .ok ⟨(parseScope nm).1, (parseScope nm).2, ver⟩) := by
  have hdata : (nm ++ "@" ++ ver).data = nm.data ++ '@' :: ver.data := by
    rw [strData_append, strData_append, List.append_assoc]
    rfl
  unfold parseRegistrySpec
  rw [hdata, lastIdxOf_append _ _ _ h]
  dsimp only
  rw [take_append_at, drop_append_at]

/-! ### C1 witness -/

/-- Witness for C1's amended theorem on a concrete schedule. -/
theorem c1_amended_witness :
    (∀ k, (SgState.mk ["uid"] ["react", "uid"]).inflight.count k ≤ 1) ∧
      (∀ k, (SgState.mk ["uid"] ["react", "uid"]).runs.count k ≤
        sgCompletions k [SgEvent.enter "react", SgEvent.enter "uid",
          SgEvent.enter "react", SgEvent.complete "react"] + 1) ∧
      (∀ k, k ∈ (SgState.mk ["uid"] ["react", "uid"]).inflight →
        sgStep (SgState.mk ["uid"] ["react", "uid"]) (.enter k) =
          some (SgState.mk ["uid"] ["react", "uid"])) :=
  c1_amended_single_inflight
    [.enter "react", .enter "uid", .enter "react", .complete "react"]
    ⟨["uid"], ["react", "uid"]⟩ rfl

/-! ### C5 and C10: the specifier parser -/

/-- Two strings with the same characters are the same string. -/
theorem strExt {s t : String} (h : s.data = t.data) : s = t := by
  cases s
  cases t
  cases h
  rfl

/-- A specifier with no `@` hits the missing-delimiter failure site. -/
theorem parseRegistrySpec_noAt (s : String) (h : '@' ∉ s.data) :
    parseRegistrySpec s = .error (.missingVersion s) := by
  unfold parseRegistrySpec
  rw [show lastIdxOf '@' s.data = none from lastIdxOf_eq_none_iff.mpr h]

/-- A specifier ending in `@` hits the empty-range failure site. -/
theorem parseRegistrySpec_emptyVer (nm : String) :
    parseRegistrySpec (nm ++ "@") = .error (.emptyVersion (nm ++ "@")) := by
  have hdata : (nm ++ "@").data = nm.data ++ '@' :: [] := by
    rw [strData_append]
  unfold parseRegistrySpec
  rw [hdata, lastIdxOf_append _ _ _ (by simp)]
  dsimp only
  rw [take_append_at, drop_append_at,
    if_pos (show (⟨[]⟩ : String) = "" from rfl)]

/-- A specifier whose range is the literal tag hits the tag failure site. -/
theorem parseRegistrySpec_latest (nm : String) :
    parseRegistrySpec (nm ++ "@latest") =
      .error (.taggedVersion (nm ++ "@latest")) := by
  have hdata : (nm ++ "@latest").data = nm.data ++ '@' :: "latest".data := by
    rw [strData_append]
  unfold parseRegistrySpec
  rw [hdata, lastIdxOf_append _ _ _ (by decide)]
  dsimp only
  rw [take_append_at, drop_append_at,
    if_neg (show ¬(⟨"latest".data⟩ : String) = "" by decide),
    if_pos (show (⟨"latest".data⟩ : String) = "latest" from rfl)]

/-- The successful parse on a last-`@` decomposition. -/
theorem parseRegistrySpec_ok (nm ver : String) (h : '@' ∉ ver.data)
    (hne : ver ≠ "") (hlat : ver ≠ "latest") :
    parseRegistrySpec (nm ++ "@" ++ ver) =
      .ok ⟨(parseScope nm).1, (parseScope nm).2, ver⟩ := by
  rw [parseRegistrySpec_split nm ver h, if_neg hne, if_neg hlat]

/-- `parseScope` on a name with no slash. -/
theorem parseScope_noSlash (n : String) (h : '/' ∉ n.data) :
    parseScope n = ("", n) := by
  unfold parseScope
  rw [show lastIdxOf '/' n.data = none from lastIdxOf_eq_none_iff.mpr h]

/-- `parseScope` on a name decomposed at its last slash. -/
theorem parseScope_split (sc n : String) (h : '/' ∉ n.data) :
    parseScope (sc ++ "/" ++ n) = (sc, n) := by
  have hdata : (sc ++ "/" ++ n).data = sc.data ++ '/' :: n.data := by
    rw [strData_append, strData_append, List.append_assoc]
    rfl
  unfold parseScope
  rw [hdata, lastIdxOf_append _ _ _ h]
  dsimp only
  rw [take_append_at, drop_append_at]

/-- Every parse failure is one of the three conditions, with the matching
error. -/
theorem parseRegistrySpec_error_cases (s : String) (e : SpecErr)
    (h : parseRegistrySpec s = .error e) :
    ('@' ∉ s.data ∧ e = .missingVersion s) ∨
      ((∃ nm : String, s = nm ++ "@") ∧ e = .emptyVersion s) ∨
      ((∃ nm : String, s = nm ++ "@latest") ∧ e = .taggedVersion s) := by
  unfold parseRegistrySpec at h
  cases hidx : lastIdxOf '@' s.data with
  | none =>
    rw [hidx] at h
    refine Or.inl ⟨lastIdxOf_eq_none_iff.mp hidx, ?_⟩
    injection h with h2
    exact h2.symm
  | some i =>
    rw [hidx] at h
    dsimp only at h
    obtain ⟨hdec, hnotin⟩ := lastIdxOf_some_decomp hidx
    by_cases hv : (⟨s.data.drop (i + 1)⟩ : String) = ""
    · rw [if_pos hv] at h
      have hb : s.data.drop (i + 1) = [] := congrArg String.data hv
      refine Or.inr (Or.inl ⟨⟨⟨s.data.take i⟩, ?_⟩, ?_⟩)
      · apply strExt
        rw [strData_append]
        conv_lhs => rw [hdec, hb]
      · injection h with h2
        exact h2.symm
    · by_cases hl : (⟨s.data.drop (i + 1)⟩ : String) = "latest"
      · rw [if_neg hv, if_pos hl] at h
        have hb : s.data.drop (i + 1) = "latest".data :=
          congrArg String.data hl
        refine Or.inr (Or.inr ⟨⟨⟨s.data.take i⟩, ?_⟩, ?_⟩)
        · apply strExt
          rw [strData_append]
          conv_lhs => rw [hdec, hb]
        · injection h with h2
          exact h2.symm
      · rw [if_neg hv, if_neg hl] at h
        cases h

/-- The missing-version and empty-version sites format identical messages. -/
theorem specErrMsg_empty_eq_missing (s : String) :
    specErrMsg (.emptyVersion s) = specErrMsg (.missingVersion s) := rfl

/-- The missing-version message always ends in a closing parenthesis. -/
theorem specErrMsg_missing_last (s : String) :
    (specErrMsg (.missingVersion s)).data.getLast? = some ')' := by
  simp only [specErrMsg, strData_append, List.getLast?_append]
  rfl

/-- The tagged-version message always ends in the letter `t`. -/
theorem specErrMsg_tagged_last (s : String) :
    (specErrMsg (.taggedVersion s)).data.getLast? = some 't' := by
  simp only [specErrMsg, strData_append, List.getLast?_append]
  rfl

/-- The shared missing/empty template is injective in the specifier it
embeds. -/
theorem specErrMsg_missing_inj (s t : String)
    (h : specErrMsg (.missingVersion s) = specErrMsg (.missingVersion t)) :
    s = t := by
  have hd : "npm: unable to install ".data ++ (s.data ++ (" because it".data ++
      (apos.data ++ ("s missing the version (e.g. ".data ++
        (s.data ++ "@1.0.0)".data))))) =
      "npm: unable to install ".data ++ (t.data ++ (" because it".data ++
      (apos.data ++ ("s missing the version (e.g. ".data ++
        (t.data ++ "@1.0.0)".data))))) := by
    have hdata := congrArg String.data h
    simpa only [specErrMsg, strData_append, List.append_assoc] using hdata
  have hd2 := List.append_cancel_left hd
  have hlen := congrArg List.length hd2
  simp only [List.length_append] at hlen
  have hln : s.data.length = t.data.length := by omega
  exact strExt (List.append_inj hd2 hln).1

/-- C5: the parser splits a raw registry specifier on the last `@` into name
and range and splits the name on the last `/` into scope and bare name;
parsing fails exactly when the `@` delimiter is missing, the range is empty,
or the range is the literal tag, each failure hitting its own error site; and
error values arising from two different conditions are never equal (the
missing-delimiter and empty-range sites share a message template, but a
missing-delimiter specifier contains no `@` while an empty-range specifier
does, and the template embeds the specifier injectively). -/
theorem c5_registry_specifier_parsing :
    (∀ s : String, '@' ∉ s.data →
        parseRegistrySpec s = .error (.missingVersion s)) ∧
      (∀ nm : String,
        parseRegistrySpec (nm ++ "@") = .error (.emptyVersion (nm ++ "@"))) ∧
      (∀ nm : String,
        parseRegistrySpec (nm ++ "@latest") =
          .error (.taggedVersion (nm ++ "@latest"))) ∧
      (∀ nm ver : String, '@' ∉ ver.data → ver ≠ "" → ver ≠ "latest" →
        parseRegistrySpec (nm ++ "@" ++ ver) =
          .ok ⟨(parseScope nm).1, (parseScope nm).2, ver⟩) ∧
      (∀ n : String, '/' ∉ n.data → parseScope n = ("", n)) ∧
      (∀ sc n : String, '/' ∉ n.data → parseScope (sc ++ "/" ++ n) = (sc, n)) ∧
      (∀ (s : String) (e : SpecErr), parseRegistrySpec s = .error e →
        ('@' ∉ s.data ∧ e = .missingVersion s) ∨
          ((∃ nm : String, s = nm ++ "@") ∧ e = .emptyVersion s) ∨
          ((∃ nm : String, s = nm ++ "@latest") ∧ e = .taggedVersion s)) ∧
      (∀ s t : String, '@' ∉ s.data → '@' ∈ t.data →
        specErrMsg (.missingVersion s) ≠ specErrMsg (.emptyVersion t)) ∧
      (∀ s t : String,
        specErrMsg (.missingVersion s) ≠ specErrMsg (.taggedVersion t)) ∧
      (∀ s t : String,
        specErrMsg (.emptyVersion s) ≠ specErrMsg (.taggedVersion t)) := by
  refine ⟨parseRegistrySpec_noAt, parseRegistrySpec_emptyVer,
    parseRegistrySpec_latest, parseRegistrySpec_ok, parseScope_noSlash,
    parseScope_split, parseRegistrySpec_error_cases, ?_, ?_, ?_⟩
  · intro s t hs ht h
    rw [specErrMsg_empty_eq_missing] at h
    have := specErrMsg_missing_inj s t h
    rw [this] at hs
    exact hs ht
  · intro s t h
    have h1 := specErrMsg_missing_last s
    have h2 := specErrMsg_tagged_last t
    rw [h] at h1
    exact absurd (h1.symm.trans h2) (by decide)
  · intro s t h
    rw [specErrMsg_empty_eq_missing] at h
    have h1 := specErrMsg_missing_last s
    have h2 := specErrMsg_tagged_last t
    rw [h] at h1
    exact absurd (h1.symm.trans h2) (by decide)

/-- Witness for C5 on a concrete scoped specifier. -/
theorem c5_registry_specifier_parsing_witness :
    parseRegistrySpec ("@scope/name" ++ "@" ++ "1.0.0") =
      .ok ⟨(parseScope "@scope/name").1, (parseScope "@scope/name").2,
        "1.0.0"⟩ :=
  c5_registry_specifier_parsing.2.2.2.1 "@scope/name" "1.0.0" (by decide)
    (by decide) (by decide)

/-- C10 counterexample: the claim fails on the code.  For the specifier `@`
(which begins with `@` and contains no other `@`), the parser itself rejects
the specifier — version resolution is never reached — and the error it
reports carries exactly the missing-version message. -/
theorem c10_counterexample :
    parseRegistrySpec "@" = .error (.emptyVersion "@") ∧
      specErrMsg (.emptyVersion "@") = specErrMsg (.missingVersion "@") ∧
      (∀ sc nm rng, parseRegistrySpec "@" ≠ .ok ⟨sc, nm, rng⟩) :=
  ⟨rfl, rfl, fun _ _ _ h => by cases h⟩

/-- C10 amended: for a specifier `@t` whose remainder `t` contains no `@`,
the leading `@` at index zero is the delimiter, so the missing-delimiter
error site is never hit; when the remainder is non-empty and not the literal
tag, the parser accepts with an empty scope, an empty bare name and the
remainder as the range, leaving it to version resolution — but the parser
itself still rejects the remainders `""` and `"latest"`. -/
theorem c10_amended_leading_at (t : String) (h : '@' ∉ t.data) :
    (∀ u : String,
        parseRegistrySpec ("@" ++ t) ≠ .error (.missingVersion u)) ∧
      (t ≠ "" → t ≠ "latest" →
        parseRegistrySpec ("@" ++ t) = .ok ⟨"", "", t⟩) := by
  have he : ("" ++ "@" ++ t : String) = "@" ++ t := by
    apply strExt
    rw [strData_append, strData_append]
    rfl
  have hsp := parseRegistrySpec_split "" t h
  rw [he] at hsp
  constructor
  · intro u hu
    rw [hsp] at hu
    by_cases h1 : t = ""
    · rw [if_pos h1] at hu
      injection hu with h3
      cases h3
    · rw [if_neg h1] at hu
      by_cases h2 : t = "latest"
      · rw [if_pos h2] at hu
        injection hu with h3
        cases h3
      · rw [if_neg h2] at hu
        cases hu
  · intro hne hlat
    rw [hsp, if_neg hne, if_neg hlat]
    rfl

/-! ### Path algebra: splitting, joining and cleaning plain paths -/

/-- `intercalateSep` on two or more parts. -/
theorem intercalateSep_cons_cons (sep : Char) (p q : List Char)
    (r : List (List Char)) :
    intercalateSep sep (p :: q :: r) = p ++ sep :: intercalateSep sep (q :: r) :=
  rfl

/-- `intercalateSep` distributes over list concatenation. -/
theorem intercalateSep_append (sep : Char) (a b : List (List Char))
    (ha : a ≠ []) (hb : b ≠ []) :
    intercalateSep sep (a ++ b) =
      intercalateSep sep a ++ sep :: intercalateSep sep b := by
  induction a with
  | nil => exact absurd rfl ha
  | cons x xs ih =>
    cases xs with
    | nil =>
      cases b with
      | nil => exact absurd rfl hb
      | cons y ys => rfl
    | cons z zs =>
      have hzb : z :: zs ++ b = z :: (zs ++ b) := rfl
      rw [List.cons_append, hzb, intercalateSep_cons_cons, ← hzb,
        ih (by simp), intercalateSep_cons_cons, List.append_assoc]
      rfl

/-- The head of a joined list with a non-empty first part. -/
theorem intercalateSep_head? (sep : Char) (x : List Char)
    (xs : List (List Char)) (hx : x ≠ []) :
    (intercalateSep sep (x :: xs)).head? = x.head? := by
  cases x with
  | nil => exact absurd rfl hx
  | cons c cr => cases xs <;> rfl

/-- A joined list with a non-empty first part is non-empty. -/
theorem intercalateSep_ne_nil (sep : Char) (x : List Char)
    (xs : List (List Char)) (hx : x ≠ []) :
    intercalateSep sep (x :: xs) ≠ [] := by
  cases x with
  | nil => exact absurd rfl hx
  | cons c cr => cases xs <;> simp [intercalateSep, intercalateSep_cons_cons]

/-- Splitting never yields the empty list of parts. -/
theorem splitOnChar_ne_nil (sep : Char) (l : List Char) :
    splitOnChar sep l ≠ [] := by
  cases l with
  | nil => simp [splitOnChar]
  | cons c rest =>
    by_cases hc : c = sep
    · simp [splitOnChar, hc]
    · simp only [splitOnChar, if_neg hc]
      cases hr : splitOnChar sep rest <;> simp

/-- Splitting around an explicit separator concatenates the two splits. -/
theorem splitOnChar_sep_append (sep : Char) (a b : List Char) :
    splitOnChar sep (a ++ sep :: b) =
      splitOnChar sep a ++ splitOnChar sep b := by
  induction a with
  | nil => simp [splitOnChar]
  | cons c rest ih =>
    by_cases hc : c = sep
    · simp [splitOnChar, hc, ih]
    · obtain ⟨h1, t1, hsp⟩ : ∃ h1 t1, splitOnChar sep rest = h1 :: t1 := by
        cases hx : splitOnChar sep rest with
        | nil => exact absurd hx (splitOnChar_ne_nil sep rest)
        | cons h1 t1 => exact ⟨h1, t1, rfl⟩
      simp [splitOnChar, hc, ih, hsp]

/-- Splitting a separator-free list yields that list as the one part. -/
theorem splitOnChar_no_sep (sep : Char) (l : List Char) (h : sep ∉ l) :
    splitOnChar sep l = [l] := by
  induction l with
  | nil => rfl
  | cons c rest ih =>
    have hc : ¬c = sep := fun hcc => h (hcc ▸ List.mem_cons_self c rest)
    have hrest : sep ∉ rest := fun hm => h (List.mem_cons_of_mem c hm)
    simp [splitOnChar, hc, ih hrest]

/-- Splitting a join flattens to the splits of the parts. -/
theorem splitOnChar_intercalate_flat (sep : Char) (parts : List (List Char))
    (hne : parts ≠ []) :
    splitOnChar sep (intercalateSep sep parts) =
      parts.flatMap (splitOnChar sep) := by
  induction parts with
  | nil => exact absurd rfl hne
  | cons x xs ih =>
    cases xs with
    | nil => simp [intercalateSep]
    | cons y ys =>
      rw [intercalateSep_cons_cons, splitOnChar_sep_append, ih (by simp)]
      simp [List.flatMap_cons]

/-- Splitting each separator-free part is the identity flattening. -/
theorem flatMap_split_id (sep : Char) (parts : List (List Char))
    (hfree : ∀ p ∈ parts, sep ∉ p) :
    parts.flatMap (splitOnChar sep) = parts := by
  induction parts with
  | nil => rfl
  | cons x xs ih =>
    rw [List.flatMap_cons,
      splitOnChar_no_sep sep x (hfree x (List.mem_cons_self x xs)),
      ih (fun p hp => hfree p (List.mem_cons_of_mem x hp))]
    rfl

/-- Splitting a join of separator-free parts recovers the parts. -/
theorem splitOnChar_intercalate (sep : Char) (parts : List (List Char))
    (hne : parts ≠ []) (hfree : ∀ p ∈ parts, sep ∉ p) :
    splitOnChar sep (intercalateSep sep parts) = parts := by
  rw [splitOnChar_intercalate_flat sep parts hne, flatMap_split_id sep parts hfree]

/-- The clean stack over plain-or-empty components pushes exactly the
non-empty ones. -/
theorem cleanStack_foldl (rooted : Bool) (comps : List (List Char))
    (h : ∀ c ∈ comps, PlainSeg c ∨ c = []) :
    ∀ acc, comps.foldl (cleanStack rooted) acc =
      (comps.filter (fun c => decide (c ≠ []))).reverse ++ acc := by
  induction comps with
  | nil => intro acc; rfl
  | cons c cs ih =>
    intro acc
    rcases h c (List.mem_cons_self c cs) with hp | hem
    · obtain ⟨h1, _, h3, h4⟩ := hp
      have hstep : cleanStack rooted acc c = c :: acc := by
        unfold cleanStack
        rw [if_neg (by simp [h1, h3]), if_neg h4]
      rw [List.foldl_cons, hstep,
        ih (fun x hx => h x (List.mem_cons_of_mem c hx)) (c :: acc)]
      simp [h1, List.filter_cons]
    · subst hem
      have hstep : cleanStack rooted acc [] = acc := by
        unfold cleanStack
        rw [if_pos (Or.inl rfl)]
      rw [List.foldl_cons, hstep,
        ih (fun x hx => h x (List.mem_cons_of_mem [] hx)) acc]
      simp [List.filter_cons]

/-- `cleanChars` on a path whose components are plain or empty, expressed
through its split. -/
theorem cleanChars_parts (p : List Char) (hp : p ≠ [])
    (hcomps : ∀ c ∈ splitOnChar '/' p, PlainSeg c ∨ c = []) :
    cleanChars p =
      (if p.head? = some '/' then
        '/' :: intercalateSep '/'
          ((splitOnChar '/' p).filter (fun c => decide (c ≠ [])))
       else if (splitOnChar '/' p).filter (fun c => decide (c ≠ [])) = [] then
        ['.']
       else
        intercalateSep '/'
          ((splitOnChar '/' p).filter (fun c => decide (c ≠ [])))) := by
  unfold cleanChars
  rw [if_neg hp]
  dsimp only
  rw [cleanStack_foldl _ _ hcomps []]
  simp only [List.append_nil, List.reverse_reverse]
  by_cases hr : p.head? = some '/'
  · rw [if_pos hr, if_pos hr]
  · rw [if_neg hr, if_neg hr]
    rcases hk : (splitOnChar '/' p).filter (fun c => decide (c ≠ [])) with
      _ | ⟨k, ks⟩
    · simp
      exact fun hx => absurd rfl hx
    · have hkx : k ≠ [] := by
        have hmem : k ∈ (splitOnChar '/' p).filter (fun c => decide (c ≠ [])) := by
          rw [hk]
          exact List.mem_cons_self k ks
        have := List.of_mem_filter hmem
        simpa using this
      rw [if_neg (intercalateSep_ne_nil _ k ks hkx),
        if_neg (List.cons_ne_nil k ks)]

/-- Splitting a plain relative path recovers its segments. -/
theorem splitOnChar_plain (segs : List (List Char)) (hne : segs ≠ [])
    (hp : ∀ s ∈ segs, PlainSeg s) :
    splitOnChar '/' (intercalateSep '/' segs) = segs :=
  splitOnChar_intercalate '/' segs hne (fun p hpm => (hp p hpm).2.1)

/-- Plain segments pass the non-emptiness filter untouched. -/
theorem filter_plain (segs : List (List Char)) (hp : ∀ s ∈ segs, PlainSeg s) :
    segs.filter (fun c => decide (c ≠ [])) = segs :=
  List.filter_eq_self.mpr (fun a ha => by simpa using (hp a ha).1)

/-- A plain relative path does not start with a slash. -/
theorem intercalateSep_head_ne_slash (x : List Char) (xs : List (List Char))
    (hx : PlainSeg x) :
    ¬(intercalateSep '/' (x :: xs)).head? = some '/' := by
  rw [intercalateSep_head? '/' x xs hx.1]
  intro hcon
  exact hx.2.1 (List.mem_of_mem_head? (by simp [hcon]))

/-- `cleanChars` fixes a plain relative path. -/
theorem cleanChars_plain (segs : List (List Char)) (hne : segs ≠ [])
    (hp : ∀ s ∈ segs, PlainSeg s) :
    cleanChars (intercalateSep '/' segs) = intercalateSep '/' segs := by
  obtain ⟨x, xs, rfl⟩ : ∃ x xs, segs = x :: xs := by
    cases segs with
    | nil => exact absurd rfl hne
    | cons x xs => exact ⟨x, xs, rfl⟩
  have hx := hp x (List.mem_cons_self x xs)
  have hsplit := splitOnChar_plain (x :: xs) (by simp) hp
  rw [cleanChars_parts _ (intercalateSep_ne_nil '/' x xs hx.1)
      (by rw [hsplit]; exact fun c hc => Or.inl (hp c hc)),
    hsplit, filter_plain _ hp,
    if_neg (intercalateSep_head_ne_slash x xs hx), if_neg (by simp)]

/-- `cleanChars` drops a trailing slash after a plain relative path. -/
theorem cleanChars_plain_slash (segs : List (List Char)) (hne : segs ≠ [])
    (hp : ∀ s ∈ segs, PlainSeg s) :
    cleanChars (intercalateSep '/' segs ++ ['/']) = intercalateSep '/' segs := by
  have hform : intercalateSep '/' segs ++ ['/'] =
      intercalateSep '/' (segs ++ [[]]) := by
    rw [intercalateSep_append '/' segs [[]] hne (by simp)]
    rfl
  obtain ⟨x, xs, rfl⟩ : ∃ x xs, segs = x :: xs := by
    cases segs with
    | nil => exact absurd rfl hne
    | cons x xs => exact ⟨x, xs, rfl⟩
  have hx := hp x (List.mem_cons_self x xs)
  have hfree : ∀ p ∈ (x :: xs) ++ [[]], '/' ∉ p := by
    intro p hpm
    rcases List.mem_append.mp hpm with hl | hr
    · exact (hp p hl).2.1
    · simp only [List.mem_singleton] at hr
      subst hr
      simp
  have hsplit := splitOnChar_intercalate '/' ((x :: xs) ++ [[]]) (by simp) hfree
  have hfilter : ((x :: xs) ++ [[]]).filter (fun c => decide (c ≠ [])) =
      x :: xs := by
    rw [List.filter_append, filter_plain _ hp]
    simp
  rw [hform]
  have hco : x :: (xs ++ [[]]) = (x :: xs) ++ [[]] := rfl
  rw [cleanChars_parts _
      (by rw [← hco]; exact intercalateSep_ne_nil '/' x (xs ++ [[]]) hx.1)
      (by rw [hsplit]; intro c hc
          rcases List.mem_append.mp hc with hl | hr
          · exact Or.inl (hp c hl)
          · simp only [List.mem_singleton] at hr
            exact Or.inr hr),
    hsplit, hfilter,
    if_neg (by rw [← hco]; exact intercalateSep_head_ne_slash x (xs ++ [[]]) hx),
    if_neg (by simp)]

/-- `cleanChars` on a rooted path of plain-or-empty components keeps the
non-empty ones. -/
theorem cleanChars_rooted (xs : List (List Char)) (hne : xs ≠ [])
    (hxs : ∀ c ∈ xs, PlainSeg c ∨ c = []) :
    cleanChars ('/' :: intercalateSep '/' xs) =
      '/' :: intercalateSep '/' (xs.filter (fun c => decide (c ≠ []))) := by
  have hfree : ∀ p ∈ xs, '/' ∉ p := by
    intro p hpm
    rcases hxs p hpm with hpl | hpe
    · exact hpl.2.1
    · subst hpe
      simp
  have hsplit : splitOnChar '/' ('/' :: intercalateSep '/' xs) = [] :: xs := by
    have h1 : splitOnChar '/' ('/' :: intercalateSep '/' xs) =
        [] :: splitOnChar '/' (intercalateSep '/' xs) := by
      simp [splitOnChar]
    rw [h1, splitOnChar_intercalate '/' xs hne hfree]
  rw [cleanChars_parts _ (by simp)
      (by rw [hsplit]; intro c hc
          rcases List.mem_cons.mp hc with hl | hr
          · exact Or.inr hl
          · exact hxs c hr),
    hsplit,
    if_pos (show ('/' :: intercalateSep '/' xs).head? = some '/' from rfl)]
  simp [List.filter_cons]

/-- `joinChars` with a non-empty first element cleans the slash-join. -/
theorem joinChars_cons_ne (x : List Char) (rest : List (List Char))
    (hx : x ≠ []) :
    joinChars (x :: rest) = cleanChars (intercalateSep '/' (x :: rest)) := by
  cases x with
  | nil => exact absurd rfl hx
  | cons c cr => rfl

/-- `joinChars` fixes a list of plain segments. -/
theorem joinChars_plain (segs : List (List Char))
    (hp : ∀ s ∈ segs, PlainSeg s) :
    joinChars segs = intercalateSep '/' segs := by
  cases segs with
  | nil => rfl
  | cons x xs =>
    rw [joinChars_cons_ne x xs (hp x (List.mem_cons_self x xs)).1]
    exact cleanChars_plain (x :: xs) (by simp) hp

/-- Joining an absolute plain path with a plain relative path appends the
segments. -/
theorem joinChars_abs_two (q ys : List (List Char)) (hq : q ≠ [])
    (hqp : ∀ seg ∈ q, PlainSeg seg) (hys : ∀ seg ∈ ys, PlainSeg seg) :
    joinChars ['/' :: intercalateSep '/' q, intercalateSep '/' ys] =
      '/' :: intercalateSep '/' (q ++ ys) := by
  rw [joinChars_cons_ne _ _ (by simp), intercalateSep_cons_cons]
  cases ys with
  | nil =>
    have hshape : ('/' :: intercalateSep '/' q) ++
        '/' :: intercalateSep '/' [intercalateSep '/' []] =
        '/' :: intercalateSep '/' (q ++ [[]]) := by
      rw [intercalateSep_append '/' q [[]] hq (by simp)]
      rfl
    rw [hshape, cleanChars_rooted (q ++ [[]]) (by simp)
        (by intro c hc
            rcases List.mem_append.mp hc with hl | hr
            · exact Or.inl (hqp c hl)
            · simp only [List.mem_singleton] at hr
              exact Or.inr hr),
      List.filter_append, filter_plain _ hqp]
    simp
  | cons y ys' =>
    have hshape : ('/' :: intercalateSep '/' q) ++
        '/' :: intercalateSep '/' [intercalateSep '/' (y :: ys')] =
        '/' :: intercalateSep '/' (q ++ y :: ys') := by
      rw [intercalateSep_append '/' q (y :: ys') hq (by simp)]
      rfl
    rw [hshape, cleanChars_rooted (q ++ y :: ys') (by simp)
        (by intro c hc
            rcases List.mem_append.mp hc with hl | hr
            · exact Or.inl (hqp c hl)
            · exact Or.inl (hys c hr)),
      filter_plain _
        (by intro c hc
            rcases List.mem_append.mp hc with hl | hr
            · exact hqp c hl
            · exact hys c hr)]

/-- Joining an absolute plain path with two further single-segment elements
(the second possibly empty) appends the kept segments. -/
theorem joinChars_abs_three (q : List (List Char)) (y1 y2 : List Char)
    (hq : q ≠ []) (hqp : ∀ seg ∈ q, PlainSeg seg) (hy1 : PlainSeg y1)
    (hy2 : PlainSeg y2 ∨ y2 = []) :
    joinChars ['/' :: intercalateSep '/' q, y1, y2] =
      '/' :: intercalateSep '/'
        ((q ++ [y1]) ++ [y2].filter (fun c => decide (c ≠ []))) := by
  rw [joinChars_cons_ne _ _ (by simp), intercalateSep_cons_cons,
    intercalateSep_cons_cons]
  have hshape : ('/' :: intercalateSep '/' q) ++
      '/' :: (y1 ++ '/' :: intercalateSep '/' [y2]) =
      '/' :: intercalateSep '/' (q ++ [y1, y2]) := by
    rw [intercalateSep_append '/' q [y1, y2] hq (by simp),
      intercalateSep_cons_cons]
    rfl
  rw [hshape, cleanChars_rooted (q ++ [y1, y2]) (by simp)
      (by intro c hc
          rcases List.mem_append.mp hc with hl | hr
          · exact Or.inl (hqp c hl)
          · rcases List.mem_cons.mp hr with h1 | h2
            · exact Or.inl (h1 ▸ hy1)
            · simp only [List.mem_singleton] at h2
              subst h2
              exact hy2),
    List.filter_append, filter_plain _ hqp, List.filter_cons]
  simp [hy1.1, List.filter_cons]

/-- `baseChars` of a plain relative path is its last segment. -/
theorem baseChars_plain (segs : List (List Char)) (hne : segs ≠ [])
    (hp : ∀ s ∈ segs, PlainSeg s) :
    baseChars (intercalateSep '/' segs) = segs.getLast hne := by
  obtain ⟨x, xs, rfl⟩ : ∃ x xs, segs = x :: xs := by
    cases segs with
    | nil => exact absurd rfl hne
    | cons x xs => exact ⟨x, xs, rfl⟩
  have hx := hp x (List.mem_cons_self x xs)
  unfold baseChars
  rw [if_neg (intercalateSep_ne_nil '/' x xs hx.1),
    splitOnChar_plain _ (by simp) hp]
  obtain ⟨g, gs, hrev⟩ : ∃ g gs, (x :: xs).reverse = g :: gs := by
    cases hxr : (x :: xs).reverse with
    | nil => exact absurd hxr (by simp)
    | cons g gs => exact ⟨g, gs, rfl⟩
  have hg : g ∈ x :: xs := by
    rw [← List.mem_reverse, hrev]
    exact List.mem_cons_self g gs
  have hgne : g ≠ [] := (hp g hg).1
  have hglast : (x :: xs).getLast hne = g := by
    have h1 : (x :: xs).getLast? = some g := by
      rw [← List.head?_reverse, hrev]
      rfl
    have h2 : (x :: xs).getLast? = some ((x :: xs).getLast hne) :=
      List.getLast?_eq_getLast _ hne
    rw [h1] at h2
    exact (Option.some.injEq _ _ ▸ h2).symm
  rw [hrev, List.dropWhile_cons, if_neg (by simpa using hgne), hglast]

/-- `dirChars` of a plain path with at least two segments keeps all but the
last. -/
theorem dirChars_plain (s0 r : List Char) (rs : List (List Char))
    (hp : ∀ s ∈ s0 :: r :: rs, PlainSeg s) :
    dirChars (intercalateSep '/' (s0 :: r :: rs)) =
      intercalateSep '/' ((s0 :: r :: rs).dropLast) := by
  unfold dirChars
  rw [splitOnChar_plain _ (by simp) hp]
  have hdl : (s0 :: r :: rs).dropLast ≠ [] := by
    cases rs <;> simp
  have hdlp : ∀ s ∈ (s0 :: r :: rs).dropLast, PlainSeg s := fun s hs =>
    hp s (List.dropLast_subset _ hs)
  exact cleanChars_plain_slash _ hdl hdlp

/-- Mapping through the `String` wrapper is the identity on character
lists. -/
theorem map_mk_data (l : List (List Char)) :
    (l.map fun d => (⟨d⟩ : String)).map String.data = l := by
  induction l with
  | nil => rfl
  | cons x xs ih => simp [ih]

/-- `rootless` of a plain path drops the first segment and keeps the rest. -/
theorem rootless_plain (segs : List (List Char)) (hne : segs ≠ [])
    (hp : ∀ s ∈ segs, PlainSeg s) :
    (rootless ⟨intercalateSep '/' segs⟩).data =
      intercalateSep '/' (segs.drop 1) := by
  unfold rootless goJoin
  rw [show (String.mk (intercalateSep '/' segs)).data =
      intercalateSep '/' segs from rfl,
    splitOnChar_plain segs hne hp, map_mk_data,
    joinChars_plain _ (fun s hs => hp s (List.drop_subset 1 segs hs))]

/-! ### C3: tar entry target paths -/

/-- C3 counterexample: the claim fails on the code.  For the directory entry
`package/sub/`, the stripped path is `sub`, so the claim places it at
`{install_dir}/sub`; but `fileInfo.Name()` re-appends the directory's own
base name to the already-stripped directory part, so the code creates
`{install_dir}/sub/sub`.  (A single-segment file entry `a.js` is likewise
written unstripped to `{install_dir}/a.js`.) -/
theorem c3_counterexample :
    entryTarget "/r/node_modules/x" "package/sub/" true =
        "/r/node_modules/x/sub/sub" ∧
      goJoin ["/r/node_modules/x", "sub"] = "/r/node_modules/x/sub" ∧
      ("/r/node_modules/x/sub/sub" : String) ≠ "/r/node_modules/x/sub" ∧
      entryTarget "/r/node_modules/x" "a.js" false = "/r/node_modules/x/a.js" :=
  ⟨rfl, rfl, by decide, rfl⟩

/-- C3 amended: for every regular-file tar entry whose name consists of at
least two plain path segments, the first segment is stripped regardless of
its literal value — the wrapper need not be named `package` — and the file is
written to `{install_dir}/{stripped_path}`; `package/sub/a.js` lands at
`{install_dir}/sub/a.js`.  (Directory entries and single-segment file
entries, excluded here, land elsewhere: see the counterexample.) -/
theorem c3_amended_strip_file_entries (install : String) (q : List (List Char))
    (habs : AbsPlain install q) (s0 : List Char) (rest : List (List Char))
    (hs0 : PlainSeg s0) (hrest : rest ≠ [])
    (hrestp : ∀ seg ∈ rest, PlainSeg seg) :
    entryTarget install ⟨intercalateSep '/' (s0 :: rest)⟩ false =
        goJoin [install, ⟨intercalateSep '/' rest⟩] ∧
      (goJoin [install, ⟨intercalateSep '/' rest⟩]).data =
        install.data ++ '/' :: intercalateSep '/' rest := by
  obtain ⟨hq, hqp, hdata⟩ := habs
  obtain ⟨r, rs, rfl⟩ : ∃ r rs, rest = r :: rs := by
    cases rest with
    | nil => exact absurd rfl hrest
    | cons r rs => exact ⟨r, rs, rfl⟩
  have hall : ∀ s ∈ s0 :: r :: rs, PlainSeg s := by
    intro s hs
    rcases List.mem_cons.mp hs with h1 | h2
    · exact h1 ▸ hs0
    · exact hrestp s h2
  have hrhs : goJoin [install, ⟨intercalateSep '/' (r :: rs)⟩] =
      ⟨'/' :: intercalateSep '/' (q ++ r :: rs)⟩ := by
    apply strExt
    show joinChars [install.data, intercalateSep '/' (r :: rs)] =
      '/' :: intercalateSep '/' (q ++ r :: rs)
    rw [hdata]
    exact joinChars_abs_two q (r :: rs) hq hqp hrestp
  constructor
  · -- the entry target equals the stripped join
    have h1 : tarInfoName ⟨intercalateSep '/' (s0 :: r :: rs)⟩ false =
        ⟨(s0 :: r :: rs).getLast (by simp)⟩ := by
      show (⟨baseChars (intercalateSep '/' (s0 :: r :: rs))⟩ : String) = _
      rw [baseChars_plain (s0 :: r :: rs) (by simp) hall]
    have h2 : goDir ⟨intercalateSep '/' (s0 :: r :: rs)⟩ =
        ⟨intercalateSep '/' (s0 :: (r :: rs).dropLast)⟩ := by
      show (⟨dirChars (intercalateSep '/' (s0 :: r :: rs))⟩ : String) = _
      rw [dirChars_plain s0 r rs hall]
      rfl
    have hdlp : ∀ s ∈ (r :: rs).dropLast, PlainSeg s := fun s hs =>
      hrestp s (List.dropLast_subset _ hs)
    have h3 : rootless ⟨intercalateSep '/' (s0 :: (r :: rs).dropLast)⟩ =
        ⟨intercalateSep '/' ((r :: rs).dropLast)⟩ := by
      apply strExt
      rw [rootless_plain (s0 :: (r :: rs).dropLast) (by simp)
          (by intro s hs
              rcases List.mem_cons.mp hs with hh | ht
              · exact hh ▸ hs0
              · exact hdlp s ht)]
      rfl
    have h4 : goJoin [install, ⟨intercalateSep '/' ((r :: rs).dropLast)⟩] =
        ⟨'/' :: intercalateSep '/' (q ++ (r :: rs).dropLast)⟩ := by
      apply strExt
      show joinChars [install.data, intercalateSep '/' ((r :: rs).dropLast)] =
        '/' :: intercalateSep '/' (q ++ (r :: rs).dropLast)
      rw [hdata]
      exact joinChars_abs_two q ((r :: rs).dropLast) hq hqp hdlp
    have hglast : (s0 :: r :: rs).getLast (by simp) =
        (r :: rs).getLast (by simp) := List.getLast_cons (by simp)
    have hgplain : PlainSeg ((r :: rs).getLast (by simp)) :=
      hrestp _ (List.getLast_mem (by simp))
    unfold entryTarget
    rw [h2, h3, h4, h1, hglast, hrhs]
    apply strExt
    show joinChars ['/' :: intercalateSep '/' (q ++ (r :: rs).dropLast),
        (r :: rs).getLast (by simp)] =
      '/' :: intercalateSep '/' (q ++ r :: rs)
    rw [show (r :: rs).getLast (by simp) =
        intercalateSep '/' [(r :: rs).getLast (by simp)] from rfl,
      joinChars_abs_two (q ++ (r :: rs).dropLast)
        [(r :: rs).getLast (by simp)] (by simp [hq])
        (by intro seg hseg
            rcases List.mem_append.mp hseg with hl | hr2
            · exact hqp seg hl
            · exact hdlp seg hr2)
        (by intro seg hseg
            simp only [List.mem_singleton] at hseg
            exact hseg ▸ hgplain),
      List.append_assoc, List.dropLast_append_getLast (by simp)]
  · -- the join lays the stripped path under the install directory
    rw [hrhs, hdata]
    show '/' :: intercalateSep '/' (q ++ r :: rs) =
      '/' :: intercalateSep '/' q ++ '/' :: intercalateSep '/' (r :: rs)
    rw [intercalateSep_append '/' q (r :: rs) hq (by simp)]
    rfl

/-- Witness for C3's amended theorem: a `package/sub/a.js` entry and a
differently-named wrapper both land at the stripped path. -/
theorem c3_amended_witness :
    entryTarget "/r/node_modules/x"
        ⟨intercalateSep '/' ["package".data, "sub".data, "a.js".data]⟩ false =
      goJoin ["/r/node_modules/x", ⟨intercalateSep '/' ["sub".data, "a.js".data]⟩] :=
  (c3_amended_strip_file_entries "/r/node_modules/x"
    ["r".data, "node_modules".data, "x".data]
    ⟨by decide, by decide, by decide⟩ "package".data
    ["sub".data, "a.js".data] (by decide) (by decide) (by decide)).1

/-! ### C4: exclusions during the local `files` walk -/

/-- C4 counterexample: the claim fails on the code.  The walk loop excludes a
yielded path only by its own base name (`continue`), with no way to prune a
subtree, so when the walk yields paths beneath a deny-listed directory (here
`node_modules`, reachable with `files: ["**"]`), a file whose own base name
is clean is included even though its ancestor directory matches an
exclusion; the directory-copy phase behaves the same way for a nested `.git`
directory. -/
theorem c4_counterexample :
    ignorePaths (goBase "node_modules") = true ∧
      "node_modules" ∉
        localFileSet ⟨"bud", "", "", ["**"], [], [], []⟩
          ["node_modules", "node_modules/uid", "node_modules/uid/package.json"] ∧
      "node_modules/uid/package.json" ∈
        localFileSet ⟨"bud", "", "", ["**"], [], [], []⟩
          ["node_modules", "node_modules/uid", "node_modules/uid/package.json"] ∧
      "node_modules/uid/package.json".data =
        "node_modules".data ++ '/' :: "uid/package.json".data ∧
      ignorePaths (goBase "sub/.git") = true ∧
      hiddenPath (goBase "sub/.git") = true ∧
      "sub/.git/config" ∈ copyDirKept ["sub", "sub/.git", "sub/.git/config"] :=
  ⟨rfl, by decide, by decide, rfl, rfl, rfl, by decide⟩

/-- C4 amended: the `files` walk keeps exactly the yielded paths whose own
base name is neither hidden nor deny-listed — the exclusion is per path and
does not prevent the walk from descending below an excluded directory — and
the directory-copy phase keeps exactly the entries whose relative path does
not start with `.` and whose base name is not deny-listed. -/
theorem c4_amended_per_path_filter (walked tree : List String) :
    (∀ p, p ∈ filesWalkKept walked ↔
        p ∈ walked ∧ hiddenPath (goBase p) = false ∧
          ignorePaths (goBase p) = false) ∧
      (∀ rel, rel ∈ copyDirKept tree ↔
        rel ∈ tree ∧ hiddenPath rel = false ∧
          ignorePaths (goBase rel) = false) := by
  constructor
  · intro p
    rw [filesWalkKept, List.mem_filter]
    constructor
    · rintro ⟨hmem, hcond⟩
      simp only [Bool.not_eq_true', Bool.or_eq_false_iff] at hcond
      exact ⟨hmem, hcond.1, hcond.2⟩
    · rintro ⟨hmem, h1, h2⟩
      refine ⟨hmem, ?_⟩
      simp only [Bool.not_eq_true', Bool.or_eq_false_iff]
      exact ⟨h1, h2⟩
  · intro rel
    rw [copyDirKept, List.mem_filter]
    constructor
    · rintro ⟨hmem, hcond⟩
      simp only [Bool.not_eq_true', Bool.or_eq_false_iff] at hcond
      exact ⟨hmem, hcond.1, hcond.2⟩
    · rintro ⟨hmem, h1, h2⟩
      refine ⟨hmem, ?_⟩
      simp only [Bool.not_eq_true', Bool.or_eq_false_iff]
      exact ⟨h1, h2⟩

/-- Witness for C4's amended theorem: a clean path under `src` is kept. -/
theorem c4_amended_witness :
    "src/index.ts" ∈ filesWalkKept ["src/index.ts", "src/.hidden.js"] :=
  ((c4_amended_per_path_filter ["src/index.ts", "src/.hidden.js"] []).1
    "src/index.ts").mpr ⟨by decide, rfl, rfl⟩

/-! ### C9: local packages with no declared name -/

/-- C9: a local package whose manifest has no (or an empty) `name` is read
without validation into a package with the empty name; its de-duplication
key is the empty string; and since `filepath.Join` drops empty elements, the
computed target directory is `{root}/node_modules` itself, so the package's
files are copied directly into the `node_modules` root. -/
theorem c9_unnamed_local_package (root : String) (q : List (List Char))
    (habs : AbsPlain root q) (dir : String) :
    readLocalPackage dir none = ⟨"", dir⟩ ∧
      localKey (readLocalPackage dir none).name = "" ∧
      localNodeDir root "" = goJoin [root, "node_modules"] ∧
      (localNodeDir root "").data = root.data ++ "/node_modules".data ∧
      (∀ f : List Char, PlainSeg f →
        (goJoin [localNodeDir root "", ⟨f⟩]).data =
          root.data ++ '/' :: ("node_modules".data ++ '/' :: f)) := by
  obtain ⟨hq, hqp, hdata⟩ := habs
  have hnm : PlainSeg "node_modules".data := by decide
  have hthree : localNodeDir root "" =
      ⟨'/' :: intercalateSep '/' (q ++ ["node_modules".data])⟩ := by
    apply strExt
    show joinChars [root.data, "node_modules".data, []] = _
    rw [hdata, joinChars_abs_three q "node_modules".data [] hq hqp hnm
      (Or.inr rfl)]
    simp
  have htwo : goJoin [root, "node_modules"] =
      ⟨'/' :: intercalateSep '/' (q ++ ["node_modules".data])⟩ := by
    apply strExt
    show joinChars [root.data, "node_modules".data] = _
    rw [hdata,
      show "node_modules".data =
        intercalateSep '/' ["node_modules".data] from rfl,
      joinChars_abs_two q ["node_modules".data] hq hqp
        (by intro seg hseg
            simp only [List.mem_singleton] at hseg
            exact hseg ▸ hnm)]
    rfl
  have hsplitnm : '/' :: intercalateSep '/' (q ++ ["node_modules".data]) =
      root.data ++ "/node_modules".data := by
    rw [intercalateSep_append '/' q ["node_modules".data] hq (by simp), hdata]
    rfl
  refine ⟨rfl, rfl, hthree.trans htwo.symm, ?_, ?_⟩
  · rw [hthree]
    exact hsplitnm
  · intro f hf
    have hjoin : (goJoin [localNodeDir root "", ⟨f⟩]).data =
        '/' :: intercalateSep '/' ((q ++ ["node_modules".data]) ++ [f]) := by
      rw [hthree]
      show joinChars
        ['/' :: intercalateSep '/' (q ++ ["node_modules".data]), f] = _
      rw [show f = intercalateSep '/' [f] from rfl,
        joinChars_abs_two (q ++ ["node_modules".data]) [f] (by simp [hq])
          (by intro seg hseg
              rcases List.mem_append.mp hseg with hl | hr
              · exact hqp seg hl
              · simp only [List.mem_singleton] at hr
                exact hr ▸ hnm)
          (by intro seg hseg
              simp only [List.mem_singleton] at hseg
              exact hseg ▸ hf)]
      rfl
    rw [hjoin, List.append_assoc,
      intercalateSep_append '/' q (["node_modules".data] ++ [f]) hq (by simp),
      intercalateSep_append '/' ["node_modules".data] [f] (by simp) (by simp),
      hdata]
    rfl

/-- Witness for C9 at a concrete root. -/
theorem c9_unnamed_local_package_witness :
    readLocalPackage "/tmp/pkg" none = ⟨"", "/tmp/pkg"⟩ ∧
      localKey (readLocalPackage "/tmp/pkg" none).name = "" ∧
      localNodeDir "/root" "" = goJoin ["/root", "node_modules"] ∧
      (localNodeDir "/root" "").data = "/root".data ++ "/node_modules".data ∧
      (∀ f : List Char, PlainSeg f →
        (goJoin [localNodeDir "/root" "", ⟨f⟩]).data =
          "/root".data ++ '/' :: ("node_modules".data ++ '/' :: f)) :=
  c9_unnamed_local_package "/root" ["root".data]
    ⟨by decide, by decide, by decide⟩ "/tmp/pkg"

/-! ### C7: the local include set and the copy destinations -/

/-- C7: the include set of a local install is exactly the union of the
literal `package.json` entry, the cleaned `main` and `browser` values when
present, the kept `files`-walk results, and the cleaned values of the nested
`imports` map and of `exports`; every included path is copied from the
source directory to the package's directory under `{root}/node_modules`,
and for a plain manifest name and file the destination is literally
`{root}/node_modules/{name}/{file}`. -/
theorem c7_local_include_and_copy (m : LocalManifest) (walked : List String)
    (pkgPath root : String) :
    (∀ f, f ∈ localFileSet m walked ↔
        (f = "package.json" ∨
          (m.main ≠ "" ∧ f = pathClean m.main) ∨
          (m.browser ≠ "" ∧ f = pathClean m.browser) ∨
          (f ∈ walked ∧ hiddenPath (goBase f) = false ∧
            ignorePaths (goBase f) = false) ∨
          (∃ imp ∈ m.imports, ∃ kv ∈ imp.2, pathClean kv.2 = f) ∨
          (∃ kv ∈ m.exports, pathClean kv.2 = f))) ∧
      (∀ f ∈ localFileSet m walked,
        (goJoin [pkgPath, f], goJoin [localNodeDir root m.name, f]) ∈
          copyPairs pkgPath (localNodeDir root m.name)
            (localFileSet m walked)) ∧
      (∀ q : List (List Char), AbsPlain root q → PlainSeg m.name.data →
        ∀ fsegs : List (List Char), fsegs ≠ [] →
          (∀ s ∈ fsegs, PlainSeg s) →
          (goJoin [localNodeDir root m.name,
              ⟨intercalateSep '/' fsegs⟩]).data =
            root.data ++ '/' :: ("node_modules".data ++ '/' ::
              (m.name.data ++ '/' :: intercalateSep '/' fsegs))) := by
  refine ⟨?_, ?_, ?_⟩
  · intro f
    by_cases hm : m.main = "" <;> by_cases hb : m.browser = "" <;>
      simp [localFileSet, filesWalkKept, hm, hb, List.mem_filter,
        List.mem_flatMap, List.mem_map, Bool.not_eq_true',
        Bool.or_eq_false_iff, and_assoc]
  · intro f hf
    exact List.mem_map.mpr ⟨f, hf, rfl⟩
  · intro q habs hname fsegs hfne hfp
    obtain ⟨hq, hqp, hdata⟩ := habs
    have hnm : PlainSeg "node_modules".data := by decide
    have hnode : localNodeDir root m.name =
        ⟨'/' :: intercalateSep '/'
          (q ++ ["node_modules".data] ++ [m.name.data])⟩ := by
      apply strExt
      show joinChars [root.data, "node_modules".data, m.name.data] = _
      rw [hdata, joinChars_abs_three q "node_modules".data m.name.data hq hqp
        hnm (Or.inl hname)]
      rw [List.filter_cons, if_pos (by simpa using hname.1)]
      rfl
    have hjoin : (goJoin [localNodeDir root m.name,
        ⟨intercalateSep '/' fsegs⟩]).data =
        '/' :: intercalateSep '/'
          ((q ++ ["node_modules".data] ++ [m.name.data]) ++ fsegs) := by
      rw [hnode]
      show joinChars ['/' :: intercalateSep '/'
          (q ++ ["node_modules".data] ++ [m.name.data]),
        intercalateSep '/' fsegs] = _
      rw [joinChars_abs_two (q ++ ["node_modules".data] ++ [m.name.data])
        fsegs (by simp [hq])
        (by intro seg hseg
            rcases List.mem_append.mp hseg with hl | hr
            · rcases List.mem_append.mp hl with hl2 | hr2
              · exact hqp seg hl2
              · simp only [List.mem_singleton] at hr2
                exact hr2 ▸ hnm
            · simp only [List.mem_singleton] at hr
              exact hr ▸ hname)
        hfp]
    rw [hjoin, List.append_assoc, List.append_assoc,
      intercalateSep_append '/' q
        (["node_modules".data] ++ ([m.name.data] ++ fsegs)) hq (by simp),
      intercalateSep_append '/' ["node_modules".data]
        ([m.name.data] ++ fsegs) (by simp) (by simp),
      intercalateSep_append '/' [m.name.data] fsegs (by simp) hfne,
      hdata]
    rfl

/-- Witness for C7 at a concrete manifest and root: a file of the package
named `bud` is copied to `/root/node_modules/bud/src/index.ts`. -/
theorem c7_local_include_and_copy_witness :
    (goJoin [localNodeDir "/root" "bud",
        ⟨intercalateSep '/' ["src".data, "index.ts".data]⟩]).data =
      "/root".data ++ '/' :: ("node_modules".data ++ '/' ::
        ("bud".data ++ '/' :: intercalateSep '/'
          ["src".data, "index.ts".data])) :=
  (c7_local_include_and_copy ⟨"bud", "", "", [], [], [], []⟩ [] "/pkg"
      "/root").2.2
    ["root".data] ⟨by decide, by decide, by decide⟩ (by decide)
    ["src".data, "index.ts".data] (by decide) (by decide)

/-! ### C2: semantic version comparison groundwork -/

/-- Lexicographic character comparison is reflexive. -/
theorem cmpCharLex_refl (l : List Char) : cmpCharLex l l = 0 := by
  induction l with
  | nil => rfl
  | cons c cs ih => simp [cmpCharLex, ih]

/-- Lexicographic character comparison takes only the three values. -/
theorem cmpCharLex_mem (a b : List Char) :
    cmpCharLex a b = -1 ∨ cmpCharLex a b = 0 ∨ cmpCharLex a b = 1 := by
  induction a generalizing b with
  | nil => cases b <;> simp [cmpCharLex]
  | cons x xs ih =>
    cases b with
    | nil => simp [cmpCharLex]
    | cons y ys =>
      unfold cmpCharLex
      split_ifs <;> simp [ih ys]

/-- Zero lexicographic comparison means equality. -/
theorem cmpCharLex_eq_zero {a b : List Char} (h : cmpCharLex a b = 0) :
    a = b := by
  induction a generalizing b with
  | nil =>
    cases b with
    | nil => rfl
    | cons y ys => exact absurd h (by simp [cmpCharLex])
  | cons x xs ih =>
    cases b with
    | nil => exact absurd h (by simp [cmpCharLex])
    | cons y ys =>
      unfold cmpCharLex at h
      by_cases h1 : x < y
      · rw [if_pos h1] at h
        exact absurd h (by decide)
      · rw [if_neg h1] at h
        by_cases h2 : y < x
        · rw [if_pos h2] at h
          exact absurd h (by decide)
        · rw [if_neg h2] at h
          have hxy : x = y := le_antisymm (not_lt.mp h2) (not_lt.mp h1)
          rw [hxy, ih h]

/-- A positive lexicographic comparison flips to a negative one. -/
theorem cmpCharLex_flip_pos {a b : List Char} (h : cmpCharLex a b = 1) :
    cmpCharLex b a = -1 := by
  induction a generalizing b with
  | nil =>
    cases b with
    | nil => exact absurd h (by decide)
    | cons y ys => exact absurd h (by simp [cmpCharLex])
  | cons x xs ih =>
    cases b with
    | nil => simp [cmpCharLex]
    | cons y ys =>
      unfold cmpCharLex at h ⊢
      by_cases h1 : x < y
      · rw [if_pos h1] at h
        exact absurd h (by decide)
      · rw [if_neg h1] at h
        by_cases h2 : y < x
        · rw [if_pos h2]
        · rw [if_neg h2] at h
          have hxy : x = y := le_antisymm (not_lt.mp h2) (not_lt.mp h1)
          rw [if_neg h2, if_neg h1]
          exact ih h

/-- Negative lexicographic comparisons compose. -/
theorem cmpCharLex_trans_neg {a b c : List Char} (h1 : cmpCharLex a b = -1)
    (h2 : cmpCharLex b c = -1) : cmpCharLex a c = -1 := by
  induction a generalizing b c with
  | nil =>
    cases c with
    | nil =>
      cases b with
      | nil => exact absurd h2 (by decide)
      | cons y ys => exact absurd h2 (by simp [cmpCharLex])
    | cons z zs => simp [cmpCharLex]
  | cons x xs ih =>
    cases b with
    | nil => exact absurd h1 (by simp [cmpCharLex])
    | cons y ys =>
      cases c with
      | nil => exact absurd h2 (by simp [cmpCharLex])
      | cons z zs =>
        unfold cmpCharLex at h1 h2 ⊢
        by_cases hxy : x < y
        · by_cases hyz : y < z
          · rw [if_pos (lt_trans hxy hyz)]
          · rw [if_neg hyz] at h2
            by_cases hzy : z < y
            · rw [if_pos hzy] at h2
              exact absurd h2 (by decide)
            · have hyzeq : y = z :=
                le_antisymm (not_lt.mp hzy) (not_lt.mp hyz)
              rw [← hyzeq, if_pos hxy]
        · rw [if_neg hxy] at h1
          by_cases hyx : y < x
          · rw [if_pos hyx] at h1
            exact absurd h1 (by decide)
          · rw [if_neg hyx] at h1
            have hxyeq : x = y := le_antisymm (not_lt.mp hyx) (not_lt.mp hxy)
            subst hxyeq
            by_cases hyz : x < z
            · rw [if_pos hyz]
            · rw [if_neg hyz] at h2 ⊢
              by_cases hzy : z < x
              · rw [if_pos hzy] at h2
                exact absurd h2 (by decide)
              · rw [if_neg hzy] at h2 ⊢
                exact ih h1 h2

/-- The `Nat` bounds of a decimal digit character. -/
theorem digit_toNat_bounds (c : Char) (h : c.isDigit = true) :
    48 ≤ c.toNat ∧ c.toNat ≤ 57 := by
  unfold Char.isDigit at h
  rw [Bool.and_eq_true, decide_eq_true_eq, decide_eq_true_eq] at h
  exact ⟨UInt32.le_toNat_of_le (by norm_num) h.1,
    UInt32.toNat_le_of_le (by norm_num) h.2⟩

/-- Characters with the same code point are equal. -/
theorem char_toNat_inj {c d : Char} (h : c.toNat = d.toNat) : c = d := by
  have := Char.ofNat_toNat c
  rw [h, Char.ofNat_toNat d] at this
  exact this.symm

/-- `digitsVal` in accumulator form. -/
theorem digitsVal_acc (l : List Char) :
    ∀ acc, l.foldl (fun acc c => 10 * acc + (c.toNat - 48)) acc =
      acc * 10 ^ l.length + digitsVal l := by
  induction l with
  | nil => intro acc; simp [digitsVal]
  | cons d t ih =>
    intro acc
    show t.foldl _ (10 * acc + (d.toNat - 48)) = _
    rw [ih (10 * acc + (d.toNat - 48))]
    have hd : digitsVal (d :: t) =
        (d.toNat - 48) * 10 ^ t.length + digitsVal t := by
      show t.foldl _ (10 * 0 + (d.toNat - 48)) = _
      rw [ih (10 * 0 + (d.toNat - 48))]
      ring
    rw [hd, List.length_cons, pow_succ]
    ring

/-- The head digit of `digitsVal` over a cons. -/
theorem digitsVal_cons (d : Char) (t : List Char) :
    digitsVal (d :: t) = (d.toNat - 48) * 10 ^ t.length + digitsVal t := by
  show t.foldl _ (10 * 0 + (d.toNat - 48)) = _
  rw [digitsVal_acc t (10 * 0 + (d.toNat - 48))]
  ring

/-- The value of a digit run is below the power of its length. -/
theorem digitsVal_lt (l : List Char) (h : ∀ c ∈ l, c.isDigit = true) :
    digitsVal l < 10 ^ l.length := by
  induction l with
  | nil => simp [digitsVal]
  | cons d t ih =>
    have hd := digit_toNat_bounds d (h d (List.mem_cons_self d t))
    have hdv : d.toNat - 48 ≤ 9 := by omega
    have ht := ih (fun c hc => h c (List.mem_cons_of_mem d hc))
    rw [digitsVal_cons, List.length_cons, pow_succ]
    have hp : 0 < 10 ^ t.length := Nat.pos_pow_of_pos _ (by norm_num)
    calc (d.toNat - 48) * 10 ^ t.length + digitsVal t
        ≤ 9 * 10 ^ t.length + digitsVal t :=
          Nat.add_le_add_right (Nat.mul_le_mul_right _ hdv) _
      _ < 9 * 10 ^ t.length + 10 ^ t.length := Nat.add_lt_add_left ht _
      _ = 10 ^ t.length * 10 := by ring

/-- The value of a digit run with a non-zero head digit reaches the power of
the tail length. -/
theorem digitsVal_ge (d : Char) (t : List Char) (hd : d.isDigit = true)
    (hne : d ≠ '0') : 10 ^ t.length ≤ digitsVal (d :: t) := by
  have hb := digit_toNat_bounds d hd
  have h0 : Char.toNat '0' = 48 := rfl
  have hd1 : 1 ≤ d.toNat - 48 := by
    rcases Nat.lt_or_ge 48 d.toNat with h1 | h1
    · omega
    · exfalso
      exact hne (char_toNat_inj (by omega : d.toNat = Char.toNat '0'))
  rw [digitsVal_cons]
  calc 10 ^ t.length = 1 * 10 ^ t.length := by ring
    _ ≤ (d.toNat - 48) * 10 ^ t.length := Nat.mul_le_mul_right _ hd1
    _ ≤ (d.toNat - 48) * 10 ^ t.length + digitsVal t := Nat.le_add_right _ _

/-- Equal-length digit runs with equal values are equal. -/
theorem digitsVal_inj_len : ∀ (a b : List Char), a.length = b.length →
    (∀ c ∈ a, c.isDigit = true) → (∀ c ∈ b, c.isDigit = true) →
    digitsVal a = digitsVal b → a = b := by
  intro a
  induction a with
  | nil =>
    intro b hlen _ _ _
    cases b with
    | nil => rfl
    | cons y ys => cases hlen
  | cons x xs ih =>
    intro b hlen hda hdb hval
    cases b with
    | nil => cases hlen
    | cons y ys =>
      have hlen2 : xs.length = ys.length := by
        simpa using hlen
      rw [digitsVal_cons, digitsVal_cons, hlen2] at hval
      have hxa := digit_toNat_bounds x (hda x (List.mem_cons_self x xs))
      have hya := digit_toNat_bounds y (hdb y (List.mem_cons_self y ys))
      have hva := digitsVal_lt xs (fun c hc => hda c (List.mem_cons_of_mem x hc))
      have hvb := digitsVal_lt ys (fun c hc => hdb c (List.mem_cons_of_mem y hc))
      rw [hlen2] at hva
      have hp : 0 < 10 ^ ys.length := Nat.pos_pow_of_pos _ (by norm_num)
      have hdx : (x.toNat - 48) = (y.toNat - 48) := by
        have h1 : ((x.toNat - 48) * 10 ^ ys.length + digitsVal xs) /
            10 ^ ys.length = x.toNat - 48 := by
          rw [Nat.add_comm, Nat.add_mul_div_right _ _ hp,
            Nat.div_eq_of_lt hva, Nat.zero_add]
        have h2 : ((y.toNat - 48) * 10 ^ ys.length + digitsVal ys) /
            10 ^ ys.length = y.toNat - 48 := by
          rw [Nat.add_comm, Nat.add_mul_div_right _ _ hp,
            Nat.div_eq_of_lt hvb, Nat.zero_add]
        rw [← h1, ← h2, hval]
      have hxy : x = y := char_toNat_inj (by omega)
      have hvtail : digitsVal xs = digitsVal ys := by
        have := hval
        rw [hdx] at this
        omega
      rw [hxy, ih ys hlen2 (fun c hc => hda c (List.mem_cons_of_mem x hc))
        (fun c hc => hdb c (List.mem_cons_of_mem y hc)) hvtail]

/-- Unpacking of the canonical-numeric-part predicate. -/
theorem numericNormal_facts {p : List Char} (h : numericNormal p = true) :
    p ≠ [] ∧ (∀ c ∈ p, c.isDigit = true) ∧
      (p.head? = some '0' → p = ['0']) ∧ digitsVal p ≤ 2 ^ 63 - 1 := by
  unfold numericNormal at h
  rw [Bool.and_eq_true, Bool.and_eq_true, Bool.and_eq_true] at h
  obtain ⟨⟨⟨h1, h2⟩, h3⟩, h4⟩ := h
  refine ⟨?_, ?_, ?_, of_decide_eq_true h4⟩
  · intro hnil
    rw [hnil] at h1
    simp at h1
  · exact fun c hc => List.all_eq_true.mp h2 c hc
  · intro hh
    rw [Bool.or_eq_true] at h3
    rcases h3 with hx | hx
    · exact absurd hh (of_decide_eq_true hx)
    · exact of_decide_eq_true hx

/-- A shorter digit run is below a longer canonical one. -/
theorem digitsVal_lt_of_len_lt {a b : List Char}
    (hadig : ∀ c ∈ a, c.isDigit = true) (hb : numericNormal b = true)
    (halen : 1 ≤ a.length) (hlen : a.length < b.length) :
    digitsVal a < digitsVal b := by
  obtain ⟨hbne, hbdig, hbz, _⟩ := numericNormal_facts hb
  obtain ⟨d, t, rfl⟩ : ∃ d t, b = d :: t := by
    cases b with
    | nil => exact absurd rfl hbne
    | cons d t => exact ⟨d, t, rfl⟩
  have hblen : 2 ≤ (d :: t).length := by omega
  have hd0 : d ≠ '0' := by
    intro hd
    have hsing : d :: t = ['0'] := hbz (by rw [hd]; rfl)
    rw [hsing] at hblen
    simp at hblen
  have h1 : 10 ^ t.length ≤ digitsVal (d :: t) :=
    digitsVal_ge d t (hbdig d (List.mem_cons_self d t)) hd0
  have h2 : digitsVal a < 10 ^ a.length := digitsVal_lt a hadig
  have h3 : 10 ^ a.length ≤ 10 ^ t.length :=
    Nat.pow_le_pow_right (by norm_num) (by simp at hlen ⊢; omega)
  omega

/-- Canonical numeric parts are determined by their value. -/
theorem numericNormal_inj {a b : List Char} (ha : numericNormal a = true)
    (hb : numericNormal b = true) (hval : digitsVal a = digitsVal b) :
    a = b := by
  obtain ⟨hane, hadig, _, _⟩ := numericNormal_facts ha
  obtain ⟨hbne, hbdig, _, _⟩ := numericNormal_facts hb
  have halen : 1 ≤ a.length := List.length_pos.mpr hane
  have hblen : 1 ≤ b.length := List.length_pos.mpr hbne
  have hlen : a.length = b.length := by
    by_contra hne
    rcases Nat.lt_or_ge a.length b.length with hlt | hge
    · exact absurd hval
        (Nat.ne_of_lt (digitsVal_lt_of_len_lt hadig hb halen hlt))
    · have hlt : b.length < a.length := by omega
      exact absurd hval.symm
        (Nat.ne_of_lt (digitsVal_lt_of_len_lt hbdig ha hblen hlt))
  exact digitsVal_inj_len a b hlen hadig hbdig hval

/-- A non-positive result of the three-valued lexicographic comparison on
distinct lists is negative. -/
theorem cmpCharLex_neg_of (s o : List Char) (hne : s ≠ o)
    (h : ¬cmpCharLex s o = 1) : cmpCharLex s o = -1 := by
  rcases cmpCharLex_mem s o with h1 | h1 | h1
  · exact h1
  · exact absurd (cmpCharLex_eq_zero h1) hne
  · exact absurd h1 h

/-- `strconv.ParseInt` on a bounded run of digits returns its value. -/
theorem goParseInt64_digits (p : List Char) (hne : p ≠ [])
    (hdig : ∀ c ∈ p, c.isDigit = true) (hb : digitsVal p ≤ 2 ^ 63 - 1) :
    goParseInt64 p = some ((digitsVal p : Int)) := by
  obtain ⟨d, t, rfl⟩ : ∃ d t, p = d :: t := by
    cases p with
    | nil => exact absurd rfl hne
    | cons d t => exact ⟨d, t, rfl⟩
  have hd := digit_toNat_bounds d (hdig d (List.mem_cons_self d t))
  have hplus : Char.toNat '+' = 43 := rfl
  have hminus : Char.toNat '-' = 45 := rfl
  have hdp : d ≠ '+' := by
    intro h
    rw [h, hplus] at hd
    omega
  have hdm : d ≠ '-' := by
    intro h
    rw [h, hminus] at hd
    omega
  have hcore : (if (d :: t).isEmpty = true ∨
      (!(d :: t).all fun c => c.isDigit) = true then (none : Option Int)
    else if digitsVal (d :: t) ≤ 2 ^ 63 - 1 then
      some ((digitsVal (d :: t) : Int)) else none) =
      some ((digitsVal (d :: t) : Int)) := by
    rw [if_neg, if_pos hb]
    rw [not_or]
    constructor
    · simp
    · simp only [Bool.not_eq_true', Bool.not_eq_false]
      exact List.all_eq_true.mpr hdig
  unfold goParseInt64
  split
  · rename_i r heq
    injection heq with h1 _
    exact absurd h1 hdp
  · rename_i r heq
    injection heq with h1 _
    exact absurd h1 hdm
  · exact hcore

/-- In a well-formed part, a successful `ParseInt` means the part is in
canonical numeric form and the value is its digit value. -/
theorem wf_numeric_facts {p : List Char} {v : Int} (hw : wfPart p = true)
    (hp : goParseInt64 p = some v) :
    numericNormal p = true ∧ v = (digitsVal p : Int) := by
  have hnorm : numericNormal p = true := by
    unfold wfPart at hw
    rw [Bool.or_eq_true] at hw
    rcases hw with h1 | h1
    · rw [hp] at h1
      simp at h1
    · exact h1
  obtain ⟨hne, hdig, _, hbound⟩ := numericNormal_facts hnorm
  rw [goParseInt64_digits p hne hdig hbound] at hp
  injection hp with hv
  exact ⟨hnorm, hv.symm⟩

/-- `comparePrePart` is reflexive. -/
theorem comparePrePart_refl (s : List Char) : comparePrePart s s = 0 := by
  unfold comparePrePart
  rw [if_pos rfl]

/-- `comparePrePart` takes only the three values. -/
theorem comparePrePart_mem (s o : List Char) :
    comparePrePart s o = -1 ∨ comparePrePart s o = 0 ∨
      comparePrePart s o = 1 := by
  unfold comparePrePart
  by_cases h1 : s = o
  · simp [h1]
  · rw [if_neg h1]
    by_cases h2 : s = []
    · rw [if_pos h2]
      split_ifs <;> simp
    · rw [if_neg h2]
      by_cases h3 : o = []
      · rw [if_pos h3]
        simp
      · rw [if_neg h3]
        cases goParseInt64 o <;> cases goParseInt64 s <;>
          dsimp only <;> first | (split_ifs <;> simp) | simp

/-- A zero `comparePrePart` means the parts are equal. -/
theorem comparePrePart_eq_zero {s o : List Char}
    (h : comparePrePart s o = 0) : s = o := by
  by_cases h1 : s = o
  · exact h1
  · exfalso
    unfold comparePrePart at h
    rw [if_neg h1] at h
    by_cases h2 : s = []
    · rw [if_pos h2] at h
      split_ifs at h <;> omega
    · rw [if_neg h2] at h
      by_cases h3 : o = []
      · rw [if_pos h3] at h
        omega
      · rw [if_neg h3] at h
        generalize goParseInt64 o = po at h
        generalize goParseInt64 s = ps at h
        cases po <;> cases ps <;> dsimp only at h <;>
          first | (split_ifs at h <;> omega) | omega

/-- A positive `comparePrePart` flips to a negative one. -/
theorem comparePrePart_flip_pos {s o : List Char}
    (h : comparePrePart s o = 1) : comparePrePart o s = -1 := by
  have hso : s ≠ o := by
    intro he
    rw [he, comparePrePart_refl] at h
    exact absurd h (by decide)
  unfold comparePrePart at h ⊢
  rw [if_neg hso] at h
  rw [if_neg (fun hh : o = s => hso hh.symm)]
  by_cases h2 : s = []
  · rw [if_pos h2] at h
    by_cases h3 : o = []
    · exact absurd (h2.trans h3.symm) hso
    · rw [if_pos h3] at h
      exact absurd h (by decide)
  · rw [if_neg h2] at h
    by_cases h3 : o = []
    · rw [if_pos h3, if_pos h2]
    · rw [if_neg h3] at h
      rw [if_neg h3, if_neg h2]
      generalize goParseInt64 o = po at h ⊢
      generalize goParseInt64 s = ps at h ⊢
      cases po <;> cases ps <;> dsimp only at h ⊢
      · -- both fail to parse: string comparison flips
        have hc : cmpCharLex s o = 1 := by
          by_cases hcc : cmpCharLex s o = 1
          · exact hcc
          · rw [if_neg hcc] at h
            exact absurd h (by decide)
        rw [if_neg (by rw [cmpCharLex_flip_pos hc]; decide)]
      · -- s numeric, o not: -1 = 1 is impossible
        exact absurd h (by decide)
      · -- both numeric
        rename_i oi si
        have hgt : si > oi := by
          by_cases hcc : si > oi
          · exact hcc
          · rw [if_neg hcc] at h
            exact absurd h (by decide)
        rw [if_neg (by omega : ¬oi > si)]

/-- Strict transitivity of `comparePrePart` on well-formed parts. -/
theorem comparePrePart_trans_neg {a b c : List Char}
    (hwa : wfPart a = true) (hwb : wfPart b = true) (hwc : wfPart c = true)
    (hab : comparePrePart a b = -1) (hbc : comparePrePart b c = -1) :
    comparePrePart a c = -1 := by
  have hne_ab : a ≠ b := by
    intro he
    rw [he, comparePrePart_refl] at hab
    exact absurd hab (by decide)
  have hne_bc : b ≠ c := by
    intro he
    rw [he, comparePrePart_refl] at hbc
    exact absurd hbc (by decide)
  unfold comparePrePart at hab hbc
  rw [if_neg hne_ab] at hab
  rw [if_neg hne_bc] at hbc
  by_cases ha0 : a = []
  · have hb0 : b ≠ [] := fun hb => hne_ab (ha0.trans hb.symm)
    rw [if_neg hb0] at hbc
    have hc0 : c ≠ [] := by
      intro hc
      rw [if_pos hc] at hbc
      exact absurd hbc (by decide)
    have hac : a ≠ c := fun he => hc0 (by rw [← he, ha0])
    unfold comparePrePart
    rw [if_neg hac, if_pos ha0, if_pos hc0]
  · rw [if_neg ha0] at hab
    have hb0 : b ≠ [] := by
      intro hb
      rw [if_pos hb] at hab
      exact absurd hab (by decide)
    rw [if_neg hb0] at hab hbc
    have hc0 : c ≠ [] := by
      intro hc
      rw [if_pos hc] at hbc
      exact absurd hbc (by decide)
    rw [if_neg hc0] at hbc
    generalize hpb : goParseInt64 b = pb at hab hbc
    generalize hpa : goParseInt64 a = pa at hab
    generalize hpc : goParseInt64 c = pc at hbc
    rcases pb with _ | vb
    · rcases pa with _ | va
      · -- a and b both non-numeric
        dsimp only at hab
        have hab' : cmpCharLex a b = -1 := by
          apply cmpCharLex_neg_of a b hne_ab
          intro hcc
          rw [if_pos hcc] at hab
          exact absurd hab (by decide)
        rcases pc with _ | vc
        · -- c non-numeric: lexicographic transitivity
          dsimp only at hbc
          have hbc' : cmpCharLex b c = -1 := by
            apply cmpCharLex_neg_of b c hne_bc
            intro hcc
            rw [if_pos hcc] at hbc
            exact absurd hbc (by decide)
          have hac' : cmpCharLex a c = -1 := cmpCharLex_trans_neg hab' hbc'
          have hac : a ≠ c := by
            intro he
            rw [he, cmpCharLex_refl] at hac'
            exact absurd hac' (by decide)
          unfold comparePrePart
          rw [if_neg hac, if_neg ha0, if_neg hc0, hpc, hpa]
          dsimp only
          rw [if_neg (by rw [hac']; decide)]
        · -- c numeric while b is not: hbc would be 1
          dsimp only at hbc
          exact absurd hbc (by decide)
      · -- a numeric, b non-numeric: a sits below every string
        rcases pc with _ | vc
        · have hac : a ≠ c := by
            intro he
            rw [he, hpc] at hpa
            exact Option.noConfusion hpa
          unfold comparePrePart
          rw [if_neg hac, if_neg ha0, if_neg hc0, hpc, hpa]
        · -- c numeric while b is not: hbc would be 1
          dsimp only at hbc
          exact absurd hbc (by decide)
    · rcases pa with _ | va
      · -- b numeric, a non-numeric: hab would be 1
        dsimp only at hab
        exact absurd hab (by decide)
      · dsimp only at hab
        obtain ⟨hna, hva⟩ := wf_numeric_facts hwa hpa
        obtain ⟨hnb, hvb⟩ := wf_numeric_facts hwb hpb
        have hlt_ab : digitsVal a < digitsVal b := by
          have hle : ¬va > vb := by
            intro hgt
            rw [if_pos hgt] at hab
            exact absurd hab (by decide)
          have hne : digitsVal a ≠ digitsVal b := by
            intro hv
            exact hne_ab (numericNormal_inj hna hnb hv)
          rw [hva, hvb] at hle
          omega
        rcases pc with _ | vc
        · -- c non-numeric: numeric a sits below it
          have hac : a ≠ c := by
            intro he
            rw [he, hpc] at hpa
            exact Option.noConfusion hpa
          unfold comparePrePart
          rw [if_neg hac, if_neg ha0, if_neg hc0, hpc, hpa]
        · -- all numeric: compare digit values
          dsimp only at hbc
          obtain ⟨hnc, hvc⟩ := wf_numeric_facts hwc hpc
          have hlt_bc : digitsVal b < digitsVal c := by
            have hle : ¬vb > vc := by
              intro hgt
              rw [if_pos hgt] at hbc
              exact absurd hbc (by decide)
            have hne : digitsVal b ≠ digitsVal c := by
              intro hv
              exact hne_bc (numericNormal_inj hnb hnc hv)
            rw [hvb, hvc] at hle
            omega
          have hvne : digitsVal a ≠ digitsVal c := by omega
          have hac : a ≠ c := fun he => hvne (by rw [he])
          unfold comparePrePart
          rw [if_neg hac, if_neg ha0, if_neg hc0, hpc, hpa]
          dsimp only
          rw [if_neg (show ¬va > vc by rw [hva, hvc]; omega)]

/-- Pulling the head character out of the first joined part. -/
theorem interc_cons_head (sep c : Char) (h : List Char)
    (t : List (List Char)) :
    intercalateSep sep ((c :: h) :: t) = c :: intercalateSep sep (h :: t) := by
  cases t <;> rfl

/-- Joining the split of a list on a separator restores the list. -/
theorem interc_split (sep : Char) (l : List Char) :
    intercalateSep sep (splitOnChar sep l) = l := by
  induction l with
  | nil => rfl
  | cons c rest ih =>
    obtain ⟨h, t, hr⟩ : ∃ h t, splitOnChar sep rest = h :: t := by
      cases hsp : splitOnChar sep rest with
      | nil => exact absurd hsp (splitOnChar_ne_nil sep rest)
      | cons h t => exact ⟨h, t, rfl⟩
    unfold splitOnChar
    dsimp only
    rw [hr]
    by_cases hc : c = sep
    · rw [if_pos hc]
      show sep :: intercalateSep sep (h :: t) = c :: rest
      rw [← hr, ih, hc]
    · rw [if_neg hc]
      dsimp only
      rw [interc_cons_head, ← hr, ih]

/-- `splitOnChar` is injective. -/
theorem splitOnChar_inj {sep : Char} {x y : List Char}
    (h : splitOnChar sep x = splitOnChar sep y) : x = y := by
  rw [← interc_split sep x, h, interc_split]

/-- The empty padding part sits below every non-empty part. -/
theorem comparePrePart_nil_left {o : List Char} (h : o ≠ []) :
    comparePrePart [] o = -1 := by
  unfold comparePrePart
  rw [if_neg (fun he : ([] : List Char) = o => h he.symm), if_pos rfl,
    if_pos h]

/-- Every non-empty part sits above the empty padding part. -/
theorem comparePrePart_nil_right {s : List Char} (h : s ≠ []) :
    comparePrePart s [] = 1 := by
  unfold comparePrePart
  rw [if_neg h, if_neg h, if_pos rfl]

/-- `cmpNilList` never returns 1: padding loses to every real part. -/
theorem cmpNilList_ne_pos (y : List (List Char)) : cmpNilList y ≠ 1 := by
  induction y with
  | nil => decide
  | cons b bs ih =>
    unfold cmpNilList
    dsimp only
    by_cases hb : b = []
    · subst hb
      rw [comparePrePart_refl, if_neg (by simp)]
      exact ih
    · rw [comparePrePart_nil_left hb, if_pos (by decide)]
      decide

/-- `cmpNilList` takes only the values -1 and 0. -/
theorem cmpNilList_mem (y : List (List Char)) :
    cmpNilList y = -1 ∨ cmpNilList y = 0 := by
  induction y with
  | nil => exact Or.inr rfl
  | cons b bs ih =>
    unfold cmpNilList
    dsimp only
    by_cases hb : b = []
    · subst hb
      rw [comparePrePart_refl, if_neg (by simp)]
      exact ih
    · rw [comparePrePart_nil_left hb, if_pos (by decide)]
      exact Or.inl rfl

/-- On non-empty parts, a zero `cmpNilList` forces the empty list. -/
theorem cmpNilList_eq_zero {y : List (List Char)}
    (hny : ∀ p ∈ y, p ≠ []) (h : cmpNilList y = 0) : y = [] := by
  cases y with
  | nil => rfl
  | cons b bs =>
    exfalso
    unfold cmpNilList at h
    dsimp only at h
    have hb : b ≠ [] := hny b (List.mem_cons_self b bs)
    rw [comparePrePart_nil_left hb, if_pos (by decide)] at h
    exact absurd h (by decide)

/-- A prerelease list never compares below the empty list. -/
theorem cmpPreList_nil_right_ne_neg (a : List (List Char)) :
    cmpPreList a [] ≠ -1 := by
  induction a with
  | nil => decide
  | cons a0 as ih =>
    unfold cmpPreList
    dsimp only
    by_cases ha : a0 = []
    · subst ha
      rw [comparePrePart_refl, if_neg (by simp)]
      exact ih
    · rw [comparePrePart_nil_right ha, if_pos (by decide)]
      decide

/-- `cmpPreList` takes only the three values. -/
theorem cmpPreList_mem (x y : List (List Char)) :
    cmpPreList x y = -1 ∨ cmpPreList x y = 0 ∨ cmpPreList x y = 1 := by
  induction x generalizing y with
  | nil =>
    rcases cmpNilList_mem y with h | h
    · exact Or.inl h
    · exact Or.inr (Or.inl h)
  | cons a as ih =>
    cases y with
    | nil =>
      unfold cmpPreList
      dsimp only
      by_cases hd : comparePrePart a [] ≠ 0
      · rw [if_pos hd]
        exact comparePrePart_mem a []
      · rw [if_neg hd]
        exact ih []
    | cons b bs =>
      unfold cmpPreList
      dsimp only
      by_cases hd : comparePrePart a b ≠ 0
      · rw [if_pos hd]
        exact comparePrePart_mem a b
      · rw [if_neg hd]
        exact ih bs

/-- On lists of non-empty parts, a zero `cmpPreList` means equality. -/
theorem cmpPreList_eq_zero : ∀ {x y : List (List Char)},
    (∀ p ∈ x, p ≠ []) → (∀ p ∈ y, p ≠ []) → cmpPreList x y = 0 → x = y := by
  intro x
  induction x with
  | nil =>
    intro y _ hny h
    exact (cmpNilList_eq_zero hny h).symm
  | cons a as ih =>
    intro y hnx hny h
    cases y with
    | nil =>
      exfalso
      unfold cmpPreList at h
      dsimp only at h
      have ha : a ≠ [] := hnx a (List.mem_cons_self a as)
      rw [comparePrePart_nil_right ha, if_pos (by decide)] at h
      exact absurd h (by decide)
    | cons b bs =>
      unfold cmpPreList at h
      dsimp only at h
      by_cases hd : comparePrePart a b ≠ 0
      · rw [if_pos hd] at h
        exact absurd h hd
      · rw [if_neg hd] at h
        have hae : a = b := comparePrePart_eq_zero (not_not.mp hd)
        have htail : as = bs := ih
          (fun p hp => hnx p (List.mem_cons_of_mem a hp))
          (fun p hp => hny p (List.mem_cons_of_mem b hp)) h
        rw [hae, htail]

/-- A positive `cmpPreList` flips to a negative one. -/
theorem cmpPreList_flip_pos : ∀ {x y : List (List Char)},
    cmpPreList x y = 1 → cmpPreList y x = -1 := by
  intro x
  induction x with
  | nil =>
    intro y h
    exact absurd h (cmpNilList_ne_pos y)
  | cons a as ih =>
    intro y h
    cases y with
    | nil =>
      unfold cmpPreList at h
      dsimp only at h
      by_cases ha : a = []
      · subst ha
        rw [comparePrePart_refl, if_neg (by simp)] at h
        show cmpNilList ([] :: as) = -1
        unfold cmpNilList
        dsimp only
        rw [comparePrePart_refl, if_neg (by simp)]
        exact ih h
      · rw [comparePrePart_nil_right ha, if_pos (by decide)] at h
        show cmpNilList (a :: as) = -1
        unfold cmpNilList
        dsimp only
        rw [comparePrePart_nil_left ha, if_pos (by decide)]
    | cons b bs =>
      unfold cmpPreList at h ⊢
      dsimp only at h ⊢
      by_cases hd : comparePrePart a b ≠ 0
      · rw [if_pos hd] at h
        rw [comparePrePart_flip_pos h, if_pos (by decide)]
      · have hae : a = b := comparePrePart_eq_zero (not_not.mp hd)
        rw [if_neg hd] at h
        subst hae
        rw [comparePrePart_refl, if_neg (by simp)]
        exact ih h

/-- Strict transitivity of `cmpPreList` on lists of well-formed parts. -/
theorem cmpPreList_trans_neg {a b c : List (List Char)}
    (hwa : ∀ p ∈ a, wfPart p = true) (hwb : ∀ p ∈ b, wfPart p = true)
    (hwc : ∀ p ∈ c, wfPart p = true)
    (hab : cmpPreList a b = -1) (hbc : cmpPreList b c = -1) :
    cmpPreList a c = -1 := by
  revert hwa hwb hwc hab hbc
  induction b generalizing a c with
  | nil =>
    intro hwa hwb hwc hab hbc
    exact absurd hab (cmpPreList_nil_right_ne_neg a)
  | cons b0 bs ih =>
    intro hwa hwb hwc hab hbc
    have hwb0 : wfPart b0 = true := hwb b0 (List.mem_cons_self b0 bs)
    have hwbs : ∀ p ∈ bs, wfPart p = true :=
      fun p hp => hwb p (List.mem_cons_of_mem b0 hp)
    cases c with
    | nil => exact absurd hbc (cmpPreList_nil_right_ne_neg (b0 :: bs))
    | cons c0 cs =>
      have hwc0 : wfPart c0 = true := hwc c0 (List.mem_cons_self c0 cs)
      have hwcs : ∀ p ∈ cs, wfPart p = true :=
        fun p hp => hwc p (List.mem_cons_of_mem c0 hp)
      unfold cmpPreList at hbc
      dsimp only at hbc
      cases a with
      | nil =>
        have hab' : cmpNilList (b0 :: bs) = -1 := hab
        unfold cmpNilList at hab'
        dsimp only at hab'
        show cmpNilList (c0 :: cs) = -1
        unfold cmpNilList
        dsimp only
        by_cases hd1 : comparePrePart [] b0 ≠ 0
        · rw [if_pos hd1] at hab'
          have hb0ne : b0 ≠ [] := by
            intro hb
            rw [hb, comparePrePart_refl] at hab'
            exact absurd hab' (by decide)
          by_cases hd2 : comparePrePart b0 c0 ≠ 0
          · rw [if_pos hd2] at hbc
            have hc0ne : c0 ≠ [] := by
              intro hcc
              rw [hcc, comparePrePart_nil_right hb0ne] at hbc
              exact absurd hbc (by decide)
            rw [if_pos (by rw [comparePrePart_nil_left hc0ne]; decide),
              comparePrePart_nil_left hc0ne]
          · have heqq : b0 = c0 := comparePrePart_eq_zero (not_not.mp hd2)
            rw [← heqq, if_pos hd1, hab']
        · have hb0 : b0 = [] := (comparePrePart_eq_zero (not_not.mp hd1)).symm
          rw [if_neg hd1] at hab'
          subst hb0
          by_cases hd2 : comparePrePart [] c0 ≠ 0
          · rw [if_pos hd2] at hbc
            have hc0ne : c0 ≠ [] := by
              intro hcc
              rw [hcc, comparePrePart_refl] at hbc
              exact absurd hbc (by decide)
            rw [if_pos (by rw [comparePrePart_nil_left hc0ne]; decide),
              comparePrePart_nil_left hc0ne]
          · rw [if_neg hd2] at hbc
            have hc0 : c0 = [] :=
              (comparePrePart_eq_zero (not_not.mp hd2)).symm
            subst hc0
            rw [if_neg hd2]
            exact ih (fun p hp => absurd hp (List.not_mem_nil p))
              hwbs hwcs hab' hbc
      | cons a0 as =>
        have hwa0 : wfPart a0 = true := hwa a0 (List.mem_cons_self a0 as)
        have hwas : ∀ p ∈ as, wfPart p = true :=
          fun p hp => hwa p (List.mem_cons_of_mem a0 hp)
        unfold cmpPreList at hab ⊢
        dsimp only at hab ⊢
        by_cases hd1 : comparePrePart a0 b0 ≠ 0
        · rw [if_pos hd1] at hab
          by_cases hd2 : comparePrePart b0 c0 ≠ 0
          · rw [if_pos hd2] at hbc
            have h3 : comparePrePart a0 c0 = -1 :=
              comparePrePart_trans_neg hwa0 hwb0 hwc0 hab hbc
            rw [if_pos (by rw [h3]; decide), h3]
          · have heqq : b0 = c0 := comparePrePart_eq_zero (not_not.mp hd2)
            rw [← heqq, if_pos hd1, hab]
        · have heq : a0 = b0 := comparePrePart_eq_zero (not_not.mp hd1)
          rw [if_neg hd1] at hab
          rw [← heq] at hbc
          by_cases hd2 : comparePrePart a0 c0 ≠ 0
          · rw [if_pos hd2] at hbc
            rw [if_pos hd2, hbc]
          · rw [if_neg hd2] at hbc
            rw [if_neg hd2]
            exact ih hwas hwbs hwcs hab hbc

/-- `cmpPreList` is reflexive. -/
theorem cmpPreList_refl (l : List (List Char)) : cmpPreList l l = 0 := by
  induction l with
  | nil => rfl
  | cons a as ih =>
    unfold cmpPreList
    dsimp only
    rw [comparePrePart_refl, if_neg (by simp)]
    exact ih

/-- A well-formed version with a prerelease has non-empty, well-formed
dot-parts. -/
theorem wfVersion_parts {v : SemVer} (hw : wfVersion v = true)
    (hne : v.pre ≠ "") :
    (∀ p ∈ splitOnChar '.' v.pre.data, p ≠ []) ∧
      (∀ p ∈ splitOnChar '.' v.pre.data, wfPart p = true) := by
  unfold wfVersion at hw
  rw [Bool.or_eq_true] at hw
  rcases hw with h1 | h1
  · exact absurd (of_decide_eq_true h1) hne
  · rw [List.all_eq_true] at h1
    constructor
    · intro p hp
      have h2 := h1 p hp
      rw [Bool.and_eq_true] at h2
      intro hpe
      rw [hpe] at h2
      simp at h2
    · intro p hp
      have h2 := h1 p hp
      rw [Bool.and_eq_true] at h2
      exact h2.2

/-- The prerelease phase is reflexive. -/
theorem prePhase_refl (v : SemVer) : prePhase v v = 0 := by
  unfold prePhase
  by_cases hv : v.pre = ""
  · simp [hv]
  · simp only [hv, decide_False, Bool.and_self, Bool.false_eq_true,
      if_false, if_neg hv]
    exact cmpPreList_refl _

/-- The prerelease phase takes only the three values. -/
theorem prePhase_mem (v o : SemVer) :
    prePhase v o = -1 ∨ prePhase v o = 0 ∨ prePhase v o = 1 := by
  unfold prePhase
  by_cases hv : v.pre = "" <;> by_cases ho : o.pre = "" <;>
    simp [hv, ho]
  exact cmpPreList_mem _ _

/-- A positive prerelease phase flips to a negative one. -/
theorem prePhase_flip_pos {v o : SemVer} (h : prePhase v o = 1) :
    prePhase o v = -1 := by
  unfold prePhase at h ⊢
  by_cases hv : v.pre = "" <;> by_cases ho : o.pre = "" <;>
    simp [hv, ho] at h ⊢
  exact cmpPreList_flip_pos h

/-- On well-formed versions, a zero prerelease phase means equal prerelease
strings. -/
theorem prePhase_zero_eq {v o : SemVer} (hwv : wfVersion v = true)
    (hwo : wfVersion o = true) (h : prePhase v o = 0) : v.pre = o.pre := by
  unfold prePhase at h
  by_cases hv : v.pre = "" <;> by_cases ho : o.pre = "" <;>
    simp [hv, ho] at h ⊢
  have hlists := cmpPreList_eq_zero (wfVersion_parts hwv hv).1
    (wfVersion_parts hwo ho).1 h
  have hdata : v.pre.data = o.pre.data := splitOnChar_inj hlists
  calc v.pre = ⟨v.pre.data⟩ := rfl
    _ = ⟨o.pre.data⟩ := by rw [hdata]
    _ = o.pre := rfl

/-- Strict transitivity of the prerelease phase on well-formed versions. -/
theorem prePhase_trans_neg {u v w : SemVer} (hwu : wfVersion u = true)
    (hwv : wfVersion v = true) (hww : wfVersion w = true)
    (h1 : prePhase u v = -1) (h2 : prePhase v w = -1) :
    prePhase u w = -1 := by
  unfold prePhase at h1 h2 ⊢
  by_cases hu : u.pre = "" <;> by_cases hv : v.pre = "" <;>
    by_cases hw : w.pre = "" <;> simp [hu, hv, hw] at h1 h2 ⊢
  exact cmpPreList_trans_neg (wfVersion_parts hwu hu).2
    (wfVersion_parts hwv hv).2 (wfVersion_parts hww hw).2 h1 h2

/-- `semCompare` written as one nested conditional on the numeric segments
with the prerelease phase as final tie-break. -/
theorem semCompare_spec (v o : SemVer) :
    semCompare v o =
      (if v.major < o.major then -1 else if o.major < v.major then 1
      else if v.minor < o.minor then -1 else if o.minor < v.minor then 1
      else if v.patch < o.patch then -1 else if o.patch < v.patch then 1
      else prePhase v o) := by
  unfold semCompare compareSegment
  dsimp only
  split_ifs <;> first | rfl | omega

/-- `semCompare` is reflexive. -/
theorem semCompare_refl (v : SemVer) : semCompare v v = 0 := by
  rw [semCompare_spec]
  simp only [lt_irrefl, if_false]
  exact prePhase_refl v

/-- `semCompare` takes only the three values. -/
theorem semCompare_mem (v o : SemVer) :
    semCompare v o = -1 ∨ semCompare v o = 0 ∨ semCompare v o = 1 := by
  rw [semCompare_spec]
  split_ifs <;> first | simp | exact prePhase_mem v o

/-- A positive `semCompare` flips to a negative one. -/
theorem semCompare_flip_pos {v o : SemVer} (h : semCompare v o = 1) :
    semCompare o v = -1 := by
  rw [semCompare_spec] at h ⊢
  split_ifs at h ⊢ <;>
    first
      | rfl
      | (exfalso; omega)
      | exact prePhase_flip_pos h

/-- On well-formed versions, a zero `semCompare` pins down all the fields
the comparison reads. -/
theorem semCompare_zero_key {v o : SemVer} (hwv : wfVersion v = true)
    (hwo : wfVersion o = true) (h : semCompare v o = 0) :
    v.major = o.major ∧ v.minor = o.minor ∧ v.patch = o.patch ∧
      v.pre = o.pre := by
  rw [semCompare_spec] at h
  split_ifs at h <;>
    first
      | exact absurd h (by decide)
      | exact ⟨by omega, by omega, by omega, prePhase_zero_eq hwv hwo h⟩

/-- `semCompare` only reads the major, minor, patch and prerelease fields
(left argument). -/
theorem semCompare_congr_left {u v : SemVer} (h1 : u.major = v.major)
    (h2 : u.minor = v.minor) (h3 : u.patch = v.patch) (h4 : u.pre = v.pre)
    (w : SemVer) : semCompare u w = semCompare v w := by
  unfold semCompare prePhase comparePrerelease
  rw [h1, h2, h3, h4]

/-- `semCompare` only reads the major, minor, patch and prerelease fields
(right argument). -/
theorem semCompare_congr_right {u v : SemVer} (h1 : u.major = v.major)
    (h2 : u.minor = v.minor) (h3 : u.patch = v.patch) (h4 : u.pre = v.pre)
    (w : SemVer) : semCompare w u = semCompare w v := by
  unfold semCompare prePhase comparePrerelease
  rw [h1, h2, h3, h4]

/-- Where a negative `semCompare` comes from: a strictly smaller segment at
the first differing level, or equal segments and a negative prerelease
phase. -/
theorem semCompare_neg_cases {v o : SemVer} (h : semCompare v o = -1) :
    v.major < o.major ∨ (v.major = o.major ∧
      (v.minor < o.minor ∨ (v.minor = o.minor ∧
        (v.patch < o.patch ∨ (v.patch = o.patch ∧
          prePhase v o = -1))))) := by
  rw [semCompare_spec] at h
  split_ifs at h <;>
    first
      | exact Or.inl (by omega)
      | exact Or.inr ⟨by omega, Or.inl (by omega)⟩
      | exact Or.inr ⟨by omega, Or.inr ⟨by omega, Or.inl (by omega)⟩⟩
      | exact Or.inr ⟨by omega, Or.inr ⟨by omega, Or.inr ⟨by omega, h⟩⟩⟩

/-- The converse: each such witness forces a negative `semCompare`. -/
theorem semCompare_neg_build {v o : SemVer}
    (hd : v.major < o.major ∨ (v.major = o.major ∧
      (v.minor < o.minor ∨ (v.minor = o.minor ∧
        (v.patch < o.patch ∨ (v.patch = o.patch ∧
          prePhase v o = -1)))))) : semCompare v o = -1 := by
  rw [semCompare_spec]
  rcases hd with h | ⟨e1, h | ⟨e2, h | ⟨e3, h⟩⟩⟩ <;>
    split_ifs <;> first | rfl | omega | (exfalso; omega) | exact h

/-- Strict transitivity of `semCompare` on well-formed versions. -/
theorem semCompare_trans_neg {u v w : SemVer} (hwu : wfVersion u = true)
    (hwv : wfVersion v = true) (hww : wfVersion w = true)
    (h1 : semCompare u v = -1) (h2 : semCompare v w = -1) :
    semCompare u w = -1 := by
  have d1 := semCompare_neg_cases h1
  have d2 := semCompare_neg_cases h2
  apply semCompare_neg_build
  rcases d1 with m1 | ⟨e11, m1 | ⟨e12, m1 | ⟨e13, p1⟩⟩⟩ <;>
    rcases d2 with m2 | ⟨e21, m2 | ⟨e22, m2 | ⟨e23, p2⟩⟩⟩ <;>
    first
      | exact Or.inl (by omega)
      | exact Or.inr ⟨by omega, Or.inl (by omega)⟩
      | exact Or.inr ⟨by omega, Or.inr ⟨by omega, Or.inl (by omega)⟩⟩
      | exact Or.inr ⟨by omega, Or.inr ⟨by omega, Or.inr ⟨by omega,
          prePhase_trans_neg hwu hwv hww p1 p2⟩⟩⟩

/-- Quasi-antisymmetry: a non-negative comparison flips to a non-positive
one on well-formed versions. -/
theorem semCompare_flip_nonneg {v o : SemVer} (hwv : wfVersion v = true)
    (hwo : wfVersion o = true) (h : 0 ≤ semCompare v o) :
    semCompare o v ≤ 0 := by
  rcases semCompare_mem v o with h1 | h1 | h1
  · omega
  · obtain ⟨e1, e2, e3, e4⟩ := semCompare_zero_key hwv hwo h1
    rw [semCompare_congr_right e1 e2 e3 e4 o]
    rw [semCompare_refl]
  · rw [semCompare_flip_pos h1]
    decide

/-- Transitivity of the non-strict order on well-formed versions. -/
theorem semCompare_le_trans {u v w : SemVer} (hwu : wfVersion u = true)
    (hwv : wfVersion v = true) (hww : wfVersion w = true)
    (h1 : semCompare u v ≤ 0) (h2 : semCompare v w ≤ 0) :
    semCompare u w ≤ 0 := by
  rcases semCompare_mem u v with ha | ha | ha
  · rcases semCompare_mem v w with hb | hb | hb
    · rw [semCompare_trans_neg hwu hwv hww ha hb]
      decide
    · obtain ⟨e1, e2, e3, e4⟩ := semCompare_zero_key hwv hww hb
      rw [← semCompare_congr_right e1 e2 e3 e4 u, ha]
      decide
    · omega
  · obtain ⟨e1, e2, e3, e4⟩ := semCompare_zero_key hwu hwv ha
    rw [semCompare_congr_left e1 e2 e3 e4 w]
    exact h2
  · omega

/-- Membership through `insertVersion`. -/
theorem insertVersion_mem (v : SemVer) (l : List SemVer) (a : SemVer) :
    a ∈ insertVersion v l ↔ a = v ∨ a ∈ l := by
  induction l with
  | nil => simp [insertVersion]
  | cons h t ih =>
    unfold insertVersion
    by_cases hc : semCompare v h < 0
    · rw [if_pos hc]
      simp [List.mem_cons, or_comm, or_left_comm]
    · rw [if_neg hc]
      rw [List.mem_cons, ih, List.mem_cons]
      tauto

/-- `insertVersion` preserves ascending order on well-formed versions. -/
theorem insertVersion_sorted {v : SemVer} {l : List SemVer}
    (hwv : wfVersion v = true) (hwl : ∀ x ∈ l, wfVersion x = true)
    (hs : l.Pairwise (fun x y => semCompare x y ≤ 0)) :
    (insertVersion v l).Pairwise (fun x y => semCompare x y ≤ 0) := by
  induction l with
  | nil => simp [insertVersion]
  | cons h t ih =>
    rw [List.pairwise_cons] at hs
    obtain ⟨hhead, htail⟩ := hs
    have hwh : wfVersion h = true := hwl h (List.mem_cons_self h t)
    have hwt : ∀ x ∈ t, wfVersion x = true :=
      fun x hx => hwl x (List.mem_cons_of_mem h hx)
    unfold insertVersion
    by_cases hc : semCompare v h < 0
    · rw [if_pos hc, List.pairwise_cons]
      constructor
      · intro b hb
        rcases List.mem_cons.mp hb with rfl | hb
        · omega
        · exact semCompare_le_trans hwv hwh (hwt b hb)
            (by omega) (hhead b hb)
      · rw [List.pairwise_cons]
        exact ⟨hhead, htail⟩
    · rw [if_neg hc, List.pairwise_cons]
      constructor
      · intro b hb
        rcases (insertVersion_mem v t b).mp hb with rfl | hb
        · exact semCompare_flip_nonneg hwv hwh (by omega)
        · exact hhead b hb
      · exact ih hwt htail

/-- Membership through `sortVersions`. -/
theorem sortVersions_mem (l : List SemVer) (a : SemVer) :
    a ∈ sortVersions l ↔ a ∈ l := by
  induction l with
  | nil => simp [sortVersions]
  | cons v rest ih =>
    unfold sortVersions
    rw [insertVersion_mem, ih, List.mem_cons]

/-- `sortVersions` produces an ascending list on well-formed versions. -/
theorem sortVersions_sorted {l : List SemVer}
    (hwl : ∀ x ∈ l, wfVersion x = true) :
    (sortVersions l).Pairwise (fun x y => semCompare x y ≤ 0) := by
  induction l with
  | nil => simp [sortVersions]
  | cons v rest ih =>
    unfold sortVersions
    exact insertVersion_sorted (hwl v (List.mem_cons_self v rest))
      (fun x hx =>
        hwl x (List.mem_cons_of_mem v ((sortVersions_mem rest x).mp hx)))
      (ih (fun x hx => hwl x (List.mem_cons_of_mem v hx)))

/-- `findFromTop` returns `none` exactly when no element passes. -/
theorem findFromTop_none_iff (chk : SemVer → Bool) (l : List SemVer) :
    findFromTop chk l = none ↔ ∀ v ∈ l, chk v = false := by
  induction l with
  | nil => simp [findFromTop]
  | cons v rest ih =>
    unfold findFromTop
    generalize hres : findFromTop chk rest = res
    rw [hres] at ih
    cases res with
    | some r =>
      dsimp only
      constructor
      · intro h
        exact Option.noConfusion h
      · intro h
        exfalso
        have h0 : (none : Option SemVer) = some r :=
          (ih.mpr (fun x hx => h x (List.mem_cons_of_mem v hx))).symm.trans
            rfl
        exact Option.noConfusion h0
    | none =>
      dsimp only
      by_cases hc : chk v = true
      · rw [if_pos hc]
        constructor
        · intro h
          exact Option.noConfusion h
        · intro h
          rw [h v (List.mem_cons_self v rest)] at hc
          exact Bool.noConfusion hc
      · rw [if_neg hc]
        constructor
        · intro _ x hx
          rcases List.mem_cons.mp hx with rfl | hx
          · rcases Bool.eq_false_or_eq_true (chk x) with hb | hb
            · exact absurd hb hc
            · exact hb
          · exact ih.mp rfl x hx
        · intro _
          rfl

/-- On an ascending list, `findFromTop` returns a passing element that every
other passing element compares at or below. -/
theorem findFromTop_some {chk : SemVer → Bool} {l : List SemVer} {r : SemVer}
    (hs : l.Pairwise (fun x y => semCompare x y ≤ 0))
    (h : findFromTop chk l = some r) :
    chk r = true ∧ r ∈ l ∧
      ∀ w ∈ l, chk w = true → semCompare w r ≤ 0 := by
  induction l with
  | nil => exact Option.noConfusion h
  | cons v rest ih =>
    rw [List.pairwise_cons] at hs
    obtain ⟨hhead, htail⟩ := hs
    unfold findFromTop at h
    generalize hres : findFromTop chk rest = res at h
    cases res with
    | some r0 =>
      dsimp only at h
      injection h with h
      subst h
      obtain ⟨hchk, hmem, hmax⟩ := ih htail hres
      refine ⟨hchk, List.mem_cons_of_mem v hmem, ?_⟩
      intro w hw hcw
      rcases List.mem_cons.mp hw with rfl | hw
      · exact hhead _ hmem
      · exact hmax w hw hcw
    | none =>
      dsimp only at h
      by_cases hc : chk v = true
      · rw [if_pos hc] at h
        injection h with h
        subst h
        refine ⟨hc, List.mem_cons_self v rest, ?_⟩
        intro w hw hcw
        rcases List.mem_cons.mp hw with rfl | hw
        · rw [semCompare_refl]
        · have hfalse := (findFromTop_none_iff chk rest).mp hres w hw
          rw [hcw] at hfalse
          exact Bool.noConfusion hfalse
      · rw [if_neg hc] at h
        exact Option.noConfusion h

/-- C2: over the keys of the registry's versions object, resolution drops
every key that fails semver parsing (without failing), and — on well-formed
versions, which includes everything a registry serves — returns the highest
parseable version satisfying the constraint checker, or the
no-matching-version error exactly when no parseable version satisfies it. -/
theorem c2_version_resolution (pkgName constraint : String)
    (keys : List String) (chk : SemVer → Bool)
    (hwf : ∀ v ∈ keys.filterMap parseSemVer, wfVersion v = true) :
    (∀ bad, parseSemVer bad = none →
      resolveVersionModel pkgName constraint (bad :: keys) chk =
        resolveVersionModel pkgName constraint keys chk) ∧
    (∀ s, resolveVersionModel pkgName constraint keys chk = Except.ok s →
      ∃ v, v ∈ keys.filterMap parseSemVer ∧ chk v = true ∧ s = vString v ∧
        ∀ w ∈ keys.filterMap parseSemVer, chk w = true →
          semCompare w v ≤ 0) ∧
    (∀ e, resolveVersionModel pkgName constraint keys chk = Except.error e →
      e = ResolveErr.noMatchingVersion pkgName constraint ∧
        ∀ w ∈ keys.filterMap parseSemVer, chk w = false) := by
  have hsorted : (resolveVersionsPure keys).Pairwise
      (fun x y => semCompare x y ≤ 0) := sortVersions_sorted hwf
  refine ⟨?_, ?_, ?_⟩
  · intro bad hbad
    unfold resolveVersionModel resolveVersionsPure
    rw [List.filterMap_cons, hbad]
  · intro s hs
    unfold resolveVersionModel at hs
    generalize hres : findFromTop chk (resolveVersionsPure keys) = res at hs
    cases res with
    | none =>
      dsimp only at hs
      exact Except.noConfusion hs
    | some r =>
      dsimp only at hs
      injection hs with hs
      subst hs
      obtain ⟨hchk, hmem, hmax⟩ := findFromTop_some hsorted hres
      refine ⟨r, (sortVersions_mem _ r).mp hmem, hchk, rfl, ?_⟩
      intro w hw hcw
      exact hmax w ((sortVersions_mem _ w).mpr hw) hcw
  · intro e he
    unfold resolveVersionModel at he
    generalize hres : findFromTop chk (resolveVersionsPure keys) = res at he
    cases res with
    | some r =>
      dsimp only at he
      exact Except.noConfusion he
    | none =>
      dsimp only at he
      injection he with he
      subst he
      refine ⟨rfl, ?_⟩
      intro w hw
      exact (findFromTop_none_iff chk (resolveVersionsPure keys)).mp hres w
        ((sortVersions_mem _ w).mpr hw)

/-- Witness for C2: a concrete registry listing with an unparseable key and
the checker for the range `<1`; the unparseable key is dropped without
failing. -/
theorem c2_version_resolution_witness :
    parseSemVer "1.0.x!" = none ∧
    resolveVersionModel "subs" "<1"
        ("1.0.x!" :: ["1.0.2", "0.0.1", "1.0.0"])
        (fun v => decide (v.major = 0)) =
      resolveVersionModel "subs" "<1" ["1.0.2", "0.0.1", "1.0.0"]
        (fun v => decide (v.major = 0)) :=
  ⟨rfl, (c2_version_resolution "subs" "<1" ["1.0.2", "0.0.1", "1.0.0"]
      (fun v => decide (v.major = 0)) (by decide)).1 "1.0.x!" rfl⟩

/-- Witness for C10's amended theorem on `@scope/name`. -/
theorem c10_amended_witness :
    (∀ u : String,
        parseRegistrySpec ("@" ++ "scope/name") ≠ .error (.missingVersion u)) ∧
      ("scope/name" ≠ "" → "scope/name" ≠ "latest" →
        parseRegistrySpec ("@" ++ "scope/name") = .ok ⟨"", "", "scope/name"⟩) :=
  c10_amended_leading_at "scope/name" (by decide)

end Npm
